import Mathlib

/-!
Verification of the placeholder-substitution workflow of `recover.py`
(recoverlette). The script downloads a OneDrive .docx template, scans it
for `[[KEY]]` placeholders, substitutes caller-supplied definitions,
uploads the result as a temporary file, converts it to PDF, saves the PDF
locally and deletes the temporary remote item. We embed the pure parts of
the script (regex scan, run-level replacement, color policy, placeholder
classification, workflow sequencing) and treat the external collaborators
(python-docx parsing/serialization, the Graph API) as explicit data:
a document codec over byte lists and an environment record describing the
outcome of each remote call.
-/

namespace Recoverlette

/-- Text is modelled as a list of characters (Python `str`). -/
abbrev Str := List Char

/-- Raw file content, as python `bytes` (a list of byte values; the codec
below stands in for the opaque python-docx parse/serialize layer). -/
abbrev Bytes := List Nat

/-- Python whitespace characters, as recognized by `str.strip()`. -/
def pyWs (c : Char) : Bool :=
  c = ' ' || c = '\t' || c = '\n' || c = '\r' || c = '\x0b' || c = '\x0c'

/-- Python `str.strip()`: removes leading and trailing whitespace.
Used on each captured placeholder key (`match.strip()` in
`find_placeholders_in_docx`). -/
def pyStrip (s : Str) : Str := ((s.dropWhile pyWs).reverse.dropWhile pyWs).reverse

/-- The delimiter-wrapped placeholder for a key: `f"[[{key}]]"` from
`process_paragraph_runs` (recover.py line 342). -/
def placeholderOf (k : Str) : Str := '[' :: '[' :: (k ++ (']' :: ']' :: []))

/-- Fuel-indexed worker for `replaceAll` (fuel keeps the recursion
structural; `replaceAll` always supplies enough fuel). -/
def replaceAllGo (p v : Str) : Nat → Str → Str
  | 0, s => s
  | _ + 1, [] => []
  | fuel + 1, c :: cs =>
    if p ≠ [] ∧ p.isPrefixOf (c :: cs) then v ++ replaceAllGo p v fuel ((c :: cs).drop p.length)
    else c :: replaceAllGo p v fuel cs

/-- Python `s.replace(p, v)` for a non-empty pattern `p`: replace all
occurrences of `p` in `s` by `v`, left to right, without rescanning the
inserted replacement (recover.py line 344). For `p = []` this returns `s`
unchanged; the script only ever calls it with patterns of the form
`[[KEY]]`, which are never empty. -/
def replaceAll (p v s : Str) : Str := replaceAllGo p v s.length s

/-- Python `p in s` (substring test), used by the guard
`if placeholder in text_to_modify` (recover.py line 343). -/
def containsSub (p s : Str) : Bool :=
  match s with
  | [] => p.isPrefixOf []
  | c :: cs => p.isPrefixOf (c :: cs) || containsSub p cs

/-- The inner loop of `process_paragraph_runs` (recover.py lines 340-345):
iterate over all replacement pairs; whenever `[[key]]` occurs in the
current text, replace every occurrence and record that the run was
modified. Returns the final text and the `replacement_done_in_run` flag. -/
def applyStep (acc : Str × Bool) (kv : Str × Str) : Str × Bool :=
  if containsSub (placeholderOf kv.1) acc.1 then
    (replaceAll (placeholderOf kv.1) kv.2 acc.1, true)
  else acc

/-- The inner loop of `process_paragraph_runs` as a fold of `applyStep`
over the replacement pairs, starting from the run text with the
`replacement_done_in_run` flag unset. -/
def applyReplacements (reps : List (Str × Str)) (t : Str) : Str × Bool :=
  reps.foldl applyStep (t, false)

/-- Lazy capture of the regex `\[\[(.*?)\]\]` after an opening `[[`:
scan for the nearest following `]]`, failing on a newline (Python `.`
does not match `\n`). Returns the captured key and the remaining text
after the closing `]]`. -/
def extractCapture : Str → Option (Str × Str)
  | [] => none
  | c :: cs =>
    if c = ']' ∧ cs.head? = some ']' then some ([], cs.tail)
    else if c = '\n' then none
    else (extractCapture cs).map (fun pr => (c :: pr.1, pr.2))

/-- Fuel-indexed worker for `findTokens`. On a failed match attempt the
scan resumes one character further, exactly like `re.findall`. -/
def findTokensGo : Nat → Str → List Str
  | 0, _ => []
  | _ + 1, [] => []
  | fuel + 1, c :: cs =>
    if c = '[' ∧ cs.head? = some '[' then
      match extractCapture cs.tail with
      | some (cap, rest) => cap :: findTokensGo fuel rest
      | none => findTokensGo fuel cs
    else findTokensGo fuel cs

/-- Python `re.findall(r"\[\[(.*?)\]\]", s)`: the list of captured keys of
all non-overlapping lazy matches, left to right (recover.py line 153). -/
def findTokens (s : Str) : List Str := findTokensGo s.length s

/-- A formatting run inside a paragraph: its text, its direct font color
(`run.font.color.rgb`), its theme color (`run.font.color.theme_color`)
and its character style reference (`run.style`, here an abstract style
identifier, `none` when the style lookup yields no style object). -/
structure Run where
  text : Str
  colorRgb : Option (Nat × Nat × Nat)
  themeColor : Option Nat
  style : Option Nat
deriving DecidableEq

/-- A paragraph is a sequence of runs. -/
structure Paragraph where
  runs : List Run
deriving DecidableEq

/-- A table cell holds paragraphs; a row holds cells; a table holds rows
(matching the `table.rows` / `row.cells` / `cell.paragraphs` iteration in
recover.py). -/
abbrev Cell := List Paragraph

abbrev Row := List Cell

abbrev Table := List Row

/-- Font color carried by a shared character style
(`style.font.color.rgb` / `.theme_color`). -/
structure StyleColor where
  rgb : Option (Nat × Nat × Nat)
  theme : Option Nat
deriving DecidableEq

/-- The in-memory document as python-docx exposes it to the script:
body paragraphs, top-level tables, the shared style sheet (style id to
its font color), and the id of the 'Default Paragraph Font' character
style when it exists and is a character style (recover.py lines 320-327),
else `none`. -/
structure Document where
  paragraphs : List Paragraph
  tables : List Table
  styles : List (Nat × StyleColor)
  defaultCharStyle : Option Nat
deriving DecidableEq

/-- The concatenated text of a paragraph (python-docx `para.text`). -/
def paraText (p : Paragraph) : Str := (p.runs.map Run.text).foldr (· ++ ·) []

/-- The keys the scanner collects from one paragraph: matches inside each
individual run, then matches against the full paragraph text (the
fallback that catches tokens split across runs), each stripped of
surrounding whitespace (recover.py lines 160-172). Returned as a list
with possible duplicates; `find_placeholders_in_docx` deduplicates. -/
def scanParagraph (p : Paragraph) : List Str :=
  ((p.runs.map (fun (r : Run) => findTokens r.text)).foldr (· ++ ·) [] ++ findTokens (paraText p)).map pyStrip

/-- All keys the scanner collects from a parsed document: body paragraphs
then every table cell's paragraphs (recover.py lines 160-187). -/
def scanDoc (d : Document) : List Str :=
  (d.paragraphs.map scanParagraph).foldr (· ++ ·) [] ++
    ((d.tables.map (fun t =>
      ((t.map (fun row =>
        ((row.map (fun cell => (cell.map scanParagraph).foldr (· ++ ·) [])).foldr (· ++ ·) []))).foldr (· ++ ·) []))).foldr (· ++ ·) [])

/-- One run of phase one of `replace_placeholders`
(`process_paragraph_runs`, recover.py lines 331-377): apply all
replacements to the run text; if any replacement fired, write the new
text back and apply the per-run color policy. With `preserve_color` (and
not `force_all_black`) the original rgb color is re-applied, and the
theme color survives only when there was no rgb color (the code clears
both and restores rgb first, theme otherwise). With neither flag the run
style is reset to the default character style (when available) and the
color forced to black. With `force_all_black` the run is left for the
final pass. -/
def processRun (reps : List (Str × Str)) (pc fb : Bool) (ds : Option Nat) (r : Run) : Run :=
  let res := applyReplacements reps r.text
  if res.2 then
    let r1 : Run := { r with text := res.1 }
    if pc && !fb then
      { r1 with themeColor := if r.colorRgb.isSome then none else r.themeColor }
    else if !fb then
      { r1 with
          style := match ds with | some d => some d | none => r1.style
          colorRgb := some (0, 0, 0)
          themeColor := none }
    else r1
  else r

/-- `process_paragraph_runs` applied to a whole paragraph: each run is
processed independently (run-level replacement; the paragraph text is
never concatenated for replacement in this version of the script). -/
def process_paragraph_runs (reps : List (Str × Str)) (pc fb : Bool) (ds : Option Nat)
    (p : Paragraph) : Paragraph :=
  ⟨p.runs.map (processRun reps pc fb ds)⟩

/-- The `--force-all-black` final pass on one run (recover.py lines
398-400 / 414-416): direct font color becomes black, theme color is
unset. -/
def paintRun (r : Run) : Run := { r with colorRgb := some (0, 0, 0), themeColor := none }

/-- All runs of a document, body paragraphs first, then table cells. -/
def allRuns (d : Document) : List Run :=
  (d.paragraphs.map Paragraph.runs).foldr (· ++ ·) [] ++
    ((d.tables.map (fun t =>
      ((t.map (fun row =>
        ((row.map (fun cell =>
          ((cell.map Paragraph.runs).foldr (· ++ ·) []))).foldr (· ++ ·) []))).foldr (· ++ ·) []))).foldr (· ++ ·) [])

/-- The style ids referenced by some run of the document (the styles the
`--force-all-black` pass also paints, guard `if run.style and ...` at
recover.py lines 401, 417). -/
def referencedStyleIds (d : Document) : List Nat := (allRuns d).filterMap Run.style

/-- The `--force-all-black` final pass over the whole document
(recover.py lines 392-426): every run in every paragraph and table cell
is painted black, and every character style referenced by some run has
its font color forced to black as well. -/
def forceAllBlackDoc (d : Document) : Document :=
  { d with
      paragraphs := d.paragraphs.map (fun p => ⟨p.runs.map paintRun⟩)
      tables := d.tables.map (fun t => t.map (fun row => row.map (fun cell =>
        cell.map (fun p => ⟨p.runs.map paintRun⟩))))
      styles := d.styles.map (fun e =>
        if e.1 ∈ referencedStyleIds d then (e.1, ⟨some (0, 0, 0), none⟩) else e) }

/-- The in-memory document transformation of `replace_placeholders`:
phase one (run-level replacement with per-run color policy) over body
paragraphs and table cells, then the `--force-all-black` pass when that
flag is set. -/
def processDoc (d : Document) (reps : List (Str × Str)) (pc fb : Bool) : Document :=
  let ds := d.defaultCharStyle
  let d1 : Document :=
    { d with
        paragraphs := d.paragraphs.map (process_paragraph_runs reps pc fb ds)
        tables := d.tables.map (fun t => t.map (fun row => row.map (fun cell =>
          cell.map (process_paragraph_runs reps pc fb ds)))) }
  if fb then forceAllBlackDoc d1 else d1

/-- The merged replacement dictionary
`all_replacements = dict-union of defined_replacements and the ADDL keys
mapped to ""` (recover.py lines 311-313), with Python dict semantics:
defined entries keep their position, an ADDL key already defined is
overwritten in place with the empty string, and remaining ADDL keys are
appended mapping to the empty string. -/
def mergeReplacements (defs : List (Str × Str)) (addl : List Str) : List (Str × Str) :=
  defs.map (fun kv => if kv.1 ∈ addl then (kv.1, ([] : Str)) else kv) ++
    (addl.filter (fun k => decide (k ∉ defs.map Prod.fst))).map (fun k => (k, ([] : Str)))

/-- Byte encoding of one `Nat`. -/
def encNat (n : Nat) : Bytes := [n]

/-- Byte encoding of an optional `Nat`. -/
def encOptNat : Option Nat → Bytes
  | none => [0]
  | some n => [1, n]

/-- Byte encoding of an optional rgb triple. -/
def encColor : Option (Nat × Nat × Nat) → Bytes
  | none => [0]
  | some (r, g, b) => [1, r, g, b]

/-- Byte encoding of one character (its code point). -/
def encChar (c : Char) : Bytes := [c.toNat]

/-- Length-prefixed byte encoding of a list. -/
def encListWith (f : α → Bytes) (xs : List α) : Bytes :=
  xs.length :: (xs.map f).foldr (· ++ ·) []

/-- Byte encoding of a run. -/
def encRun (r : Run) : Bytes :=
  encListWith encChar r.text ++ encColor r.colorRgb ++ encOptNat r.themeColor ++
    encOptNat r.style

/-- Byte encoding of a paragraph. -/
def encPara (p : Paragraph) : Bytes := encListWith encRun p.runs

/-- Byte encoding of a style entry. -/
def encStyle (e : Nat × StyleColor) : Bytes :=
  encNat e.1 ++ encColor e.2.rgb ++ encOptNat e.2.theme

/-- Canonical serialized form of a document body. -/
def docEnc (d : Document) : Bytes :=
  encListWith encPara d.paragraphs ++
    encListWith (encListWith (encListWith (encListWith encPara))) d.tables ++
    encListWith encStyle d.styles ++ encOptNat d.defaultCharStyle

/-- Model of `document.save(...)` (recover.py lines 429-433): python-docx
always emits a fresh canonical serialization, marked here by a leading
format byte `0`. -/
def encodeDocx (d : Document) : Bytes := 0 :: docEnc d

/-- Byte decoding of one `Nat`. -/
def decNat : Bytes → Option (Nat × Bytes)
  | [] => none
  | n :: r => some (n, r)

/-- Byte decoding of an optional `Nat`. -/
def decOptNat : Bytes → Option (Option Nat × Bytes)
  | 0 :: r => some (none, r)
  | 1 :: n :: r => some (some n, r)
  | _ => none

/-- Byte decoding of an optional rgb triple. -/
def decColor : Bytes → Option (Option (Nat × Nat × Nat) × Bytes)
  | 0 :: r => some (none, r)
  | 1 :: a :: b :: c :: r => some (some (a, b, c), r)
  | _ => none

/-- Byte decoding of one character. -/
def decChar : Bytes → Option (Char × Bytes)
  | [] => none
  | n :: r => some (Char.ofNat n, r)

/-- Decode exactly `n` values with `f`. -/
def decCount (f : Bytes → Option (α × Bytes)) : Nat → Bytes → Option (List α × Bytes)
  | 0, b => some ([], b)
  | n + 1, b =>
    match f b with
    | none => none
    | some (a, b1) =>
      match decCount f n b1 with
      | none => none
      | some (as, b2) => some (a :: as, b2)

/-- Decode a length-prefixed list. -/
def decListWith (f : Bytes → Option (α × Bytes)) (b : Bytes) : Option (List α × Bytes) :=
  match b with
  | [] => none
  | n :: r => decCount f n r

/-- Byte decoding of a run. -/
def decRun (b : Bytes) : Option (Run × Bytes) := do
  let (t, b1) ← decListWith decChar b
  let (cr, b2) ← decColor b1
  let (th, b3) ← decOptNat b2
  let (st, b4) ← decOptNat b3
  pure (⟨t, cr, th, st⟩, b4)

/-- Byte decoding of a paragraph. -/
def decPara (b : Bytes) : Option (Paragraph × Bytes) := do
  let (rs, b1) ← decListWith decRun b
  pure (⟨rs⟩, b1)

/-- Byte decoding of a style entry. -/
def decStyle (b : Bytes) : Option ((Nat × StyleColor) × Bytes) := do
  let (sid, b1) ← decNat b
  let (rgb, b2) ← decColor b1
  let (th, b3) ← decOptNat b2
  pure ((sid, ⟨rgb, th⟩), b3)

/-- Byte decoding of a document body. -/
def docDec (b : Bytes) : Option (Document × Bytes) := do
  let (paras, b1) ← decListWith decPara b
  let (tables, b2) ← decListWith (decListWith (decListWith (decListWith decPara))) b1
  let (styles, b3) ← decListWith decStyle b2
  let (dcs, b4) ← decOptNat b3
  pure (⟨paras, tables, styles, dcs⟩, b4)

/-- Model of `docx.Document(io.BytesIO(content_bytes))`: the opaque
python-docx parser. It accepts either format byte `0` (the canonical form
`encodeDocx` emits) or `1` (an equivalent non-canonical container, e.g.
differing zip metadata), and fails (raises, in the script) on anything
else; decoding is otherwise deterministic in the byte content. -/
def decodeDocx (b : Bytes) : Option Document :=
  match b with
  | [] => none
  | m :: r =>
    if m ≤ 1 then
      match docDec r with
      | some (d, []) => some d
      | _ => none
    else none

/-- `find_placeholders_in_docx` (recover.py lines 148-193): parse the
bytes, collect all `[[...]]` keys (stripped) from body paragraphs and
table cells; on a parse failure return the empty set with a warning. The
set is modelled as a duplicate-free list. -/
def find_placeholders_in_docx (content : Bytes) : List Str :=
  match decodeDocx content with
  | none => []
  | some d => (scanDoc d).dedup

/-- `replace_placeholders` (recover.py lines 297-437): parse the bytes;
merge the defined replacements with the undefined-ADDL removals; if the
merged dictionary is empty return the input bytes unchanged (lines
315-317); otherwise perform run-level replacement with the color policy
and re-serialize. A parse failure yields `none` (the except branch at
lines 435-437). -/
def replace_placeholders (content : Bytes) (defs : List (Str × Str)) (addl : List Str)
    (pc fb : Bool) : Option Bytes :=
  match decodeDocx content with
  | none => none
  | some d =>
    let reps := mergeReplacements defs addl
    if reps = [] then some content
    else some (encodeDocx (processDoc d reps pc fb))

/-- The classification loop of `main` (recover.py lines 588-592): among
found placeholders, those without a definition split into the
`ADDL_`-prefixed ones (to be silently removed) and the reportable
undefined ones (warned about, left in place). -/
def classifyPlaceholders (found : List Str) (definedKeys : List Str) : List Str × List Str :=
  (found.filter (fun ph => decide (ph ∉ definedKeys) && ("ADDL_".toList).isPrefixOf ph),
   found.filter (fun ph => decide (ph ∉ definedKeys) && !("ADDL_".toList).isPrefixOf ph))

/-- Outcome of each external (Graph API) call made by one run of `main`:
whether authentication succeeds, the located ids, the fetched template
bytes, the id assigned to the uploaded temporary file, whether
PDF-conversion-and-local-save succeeds, and whether the remote delete
succeeds. -/
structure Env where
  authOk : Bool
  itemId : Option Str
  parentId : Option Str
  driveId : Option Str
  fetched : Option Bytes
  uploadId : Option Str
  saveOk : Bool
  deleteOk : Bool
deriving DecidableEq

/-- The step of `main` at which a run fails. -/
inductive FailPoint
  | auth
  | locate
  | fetch
  | subst
  | upload
  | save
deriving DecidableEq

/-- Observable outcome of one run of `main`: where it failed (if
anywhere), the warned-about undefined placeholders, the silently removed
ADDL keys, whether deletion of the temporary item was attempted and
succeeded, the two cleanup warnings, and the final success line. -/
structure MainRes where
  failure : Option FailPoint
  reportable : List Str
  addlRemoved : List Str
  deleteAttempted : Bool
  deleted : Bool
  warnSkipCleanup : Bool
  warnDeleteFailed : Bool
  success : Bool
deriving DecidableEq

/-- `main` (recover.py lines 561-636): authenticate, locate, fetch, scan
and classify placeholders, substitute, upload, convert and save, then in
the `finally` block delete the temporary item only when the local save
succeeded (otherwise warn and keep it). Every failure path logs and
returns; `main` never raises. -/
def mainModel (env : Env) (defs : List (Str × Str)) (pc fb : Bool) : MainRes :=
  if !env.authOk then ⟨some .auth, [], [], false, false, false, false, false⟩
  else
    match env.itemId, env.parentId, env.driveId with
    | some _, some _, some _ =>
      match env.fetched with
      | none => ⟨some .fetch, [], [], false, false, false, false, false⟩
      | some content =>
        let found := find_placeholders_in_docx content
        let cls := classifyPlaceholders found (defs.map Prod.fst)
        match replace_placeholders content defs cls.1 pc fb with
        | none => ⟨some .subst, cls.2, cls.1, false, false, false, false, false⟩
        | some _updated =>
          match env.uploadId with
          | none => ⟨some .upload, cls.2, cls.1, false, false, false, false, false⟩
          | some _tid =>
            ⟨if env.saveOk then none else some .save, cls.2, cls.1,
             env.saveOk, env.saveOk && env.deleteOk, !env.saveOk,
             env.saveOk && !env.deleteOk, env.saveOk⟩
    | _, _, _ => ⟨some .locate, [], [], false, false, false, false, false⟩

/-- The `__main__` block (recover.py lines 639-725): exit 1 when the
client id is missing (line 48), when the output directory cannot be
created (line 710), or on a user interrupt (line 722); otherwise
`asyncio.run(main(...))` returns normally — `main` catches every failure
internally — and the process ends with exit code 0. Returns the exit code
together with the outcome of `main` when it ran. -/
def entryPoint (clientIdSet outputDirOk interrupted : Bool) (env : Env)
    (defs : List (Str × Str)) (pc fb : Bool) : Nat × Option MainRes :=
  if !clientIdSet then (1, none)
  else if !outputDirOk then (1, none)
  else if interrupted then (1, none)
  else (0, some (mainModel env defs pc fb))

/-- The paragraph-level substitution strategy as the specification
describes it (a refinement reference, not the code): concatenate all run
texts, replace against the concatenated string, and if any replacement
occurred write the whole result into the first run and blank the others. -/
def specConcatParagraph (reps : List (Str × Str)) (p : Paragraph) : Paragraph :=
  let res := applyReplacements reps (paraText p)
  if res.2 then
    match p.runs with
    | [] => p
    | r :: rest => ⟨{ r with text := res.1 } :: rest.map (fun r2 => { r2 with text := [] })⟩
  else p

/-- Segment view used for well-formedness: a run's text decomposes into
literal stretches and complete placeholder tokens. -/
inductive Seg
  | lit (l : Str)
  | tok (k : Str)
deriving DecidableEq

/-- The text a segment denotes. -/
def renderSeg : Seg → Str
  | .lit l => l
  | .tok k => placeholderOf k

/-- The text a segment list denotes. -/
def render (segs : List Seg) : Str := segs.foldr (fun sg acc => renderSeg sg ++ acc) []

/-- The keys of the token segments, in order. -/
def tokKeys (segs : List Seg) : List Str :=
  segs.filterMap (fun sg => match sg with | .tok k => some k | .lit _ => none)

/-- Replace every token with key `k` by the literal `v`. -/
def substTok (k v : Str) : Seg → Seg
  | .tok k2 => if k2 = k then .lit v else .tok k2
  | .lit l => .lit l

/-- The segment-level effect of applying all replacements in order. -/
def applySegs (reps : List (Str × Str)) (segs : List Seg) : List Seg :=
  reps.foldl (fun sg kv => sg.map (substTok kv.1 kv.2)) segs

/-- A bracket-free string: contains neither `[` nor `]`. -/
def bfStr (l : Str) : Prop := ∀ c ∈ l, c ≠ '[' ∧ c ≠ ']'

/-- A well-formed placeholder key: bracket-free, newline-free and already
stripped of surrounding whitespace. -/
def keyStr (k : Str) : Prop := bfStr k ∧ '\n' ∉ k ∧ pyStrip k = k

/-- Well-formedness of one segment. -/
def SegOK : Seg → Prop
  | .lit l => bfStr l
  | .tok k => keyStr k

/-- Well-formedness of a segment list. -/
def SegsOK (segs : List Seg) : Prop := ∀ sg ∈ segs, SegOK sg

/-- Well-formedness of a replacement dictionary: keys are well-formed
placeholder keys and values are bracket-free. -/
def RepsOK (reps : List (Str × Str)) : Prop := ∀ kv ∈ reps, keyStr kv.1 ∧ bfStr kv.2

/-- A run is well-formed when its text is the rendering of well-formed
segments: every delimiter in it belongs to a complete, unsplit token. -/
def RunWF (r : Run) : Prop := ∃ segs, SegsOK segs ∧ r.text = render segs

/-- A paragraph is well-formed when all its runs are. -/
def ParagraphWF (p : Paragraph) : Prop := ∀ r ∈ p.runs, RunWF r

/-- A document is well-formed when all its paragraphs, in the body and in
every table cell, are. -/
def DocWF (d : Document) : Prop :=
  (∀ p ∈ d.paragraphs, ParagraphWF p) ∧
    (∀ t ∈ d.tables, ∀ row ∈ t, ∀ cell ∈ row, ∀ p ∈ cell, ParagraphWF p)

instance (l : Str) : Decidable (bfStr l) := by
  unfold bfStr
  exact List.decidableBAll _ l

instance (k : Str) : Decidable (keyStr k) := by
  unfold keyStr
  infer_instance

instance (sg : Seg) : Decidable (SegOK sg) :=
  match sg with
  | .lit l => (inferInstance : Decidable (bfStr l))
  | .tok k => (inferInstance : Decidable (keyStr k))

instance (segs : List Seg) : Decidable (SegsOK segs) := by
  unfold SegsOK
  exact List.decidableBAll _ segs

instance (reps : List (Str × Str)) : Decidable (RepsOK reps) := by
  unfold RepsOK
  exact List.decidableBAll _ reps

/-- An empty document (no paragraphs, no tables, no styles). -/
def demoDoc : Document := ⟨[], [], [], none⟩

/-- A document with no placeholder tokens at all. -/
def plainDoc : Document := ⟨[⟨[⟨"hello world".toList, none, none, none⟩]⟩], [], [], none⟩

/-- A well-formed one-paragraph document with a defined key, an optional
ADDL key and an undefined key, all as unsplit tokens in a single run. -/
def wfDoc : Document :=
  ⟨[⟨[⟨"Dear [[K]], note [[ADDL_NOTE]] and [[UNDEF]].".toList, some (255, 0, 0), none, some 3⟩]⟩],
    [], [(3, ⟨none, some 7⟩)], some 9⟩

/-- The segment decomposition of the single run of `wfDoc`. -/
def wfSegs : List Seg :=
  [.lit "Dear ".toList, .tok "K".toList, .lit ", note ".toList, .tok "ADDL_NOTE".toList,
    .lit " and ".toList, .tok "UNDEF".toList, .lit ".".toList]

/-- A paragraph whose token `[[K]]` is split across two adjacent runs. -/
def cexSplitDoc : Document :=
  ⟨[⟨[⟨"[[K".toList, none, none, none⟩, ⟨"]]".toList, none, none, none⟩]⟩], [], [], none⟩

/-- A paragraph with a whole-token first run and a plain second run. -/
def cexC2Para : Paragraph :=
  ⟨[⟨"[[K]]".toList, none, none, none⟩, ⟨"tail".toList, none, none, none⟩]⟩

/-- A document whose optional ADDL token is split across two runs. -/
def cexC5Doc : Document :=
  ⟨[⟨[⟨"[[ADDL_X".toList, none, none, none⟩, ⟨"]]".toList, none, none, none⟩]⟩], [], [], none⟩

/-- A document with overlapping tokens: the scanner captures `X[[A` while
the replacement map defines `A`. -/
def cexC6Doc : Document := ⟨[⟨[⟨"[[X[[A]]]]".toList, none, none, none⟩]⟩], [], [], none⟩

/-- A document with one red run and no placeholders. -/
def redDoc : Document := ⟨[⟨[⟨"hi".toList, some (255, 0, 0), none, none⟩]⟩], [], [], none⟩

/-- Bytes the document parser rejects. -/
def badBytes : Bytes := [7]

/-- An environment whose authentication step fails. -/
def envAuthFail : Env := ⟨false, none, none, none, none, none, false, false⟩

/-- An environment in which everything up to the upload succeeds, the
local save fails, and the remote delete would succeed if attempted. -/
def envSaveFail : Env :=
  ⟨true, some "i".toList, some "p".toList, some "d".toList, some (encodeDocx demoDoc),
    some "t".toList, false, true⟩

/-- An environment that fetches unparseable template bytes. -/
def envBadTemplate : Env :=
  ⟨true, some "i".toList, some "p".toList, some "d".toList, some badBytes,
    some "t".toList, true, true⟩

/-! ### Properties of `replaceAll` -/

theorem replaceAllGo_congr (p v : Str) :
    ∀ (f g : Nat) (s : Str), s.length ≤ f → s.length ≤ g →
      replaceAllGo p v f s = replaceAllGo p v g s := by
  intro f
  induction f with
  | zero =>
    intro g s hf hg
    have hs : s = [] := List.eq_nil_of_length_eq_zero (Nat.le_zero.mp hf)
    subst hs
    cases g <;> rfl
  | succ n ih =>
    intro g s hf hg
    cases s with
    | nil => cases g <;> rfl
    | cons c cs =>
      cases g with
      | zero => simp at hg
      | succ m =>
        simp only [replaceAllGo]
        by_cases h : p ≠ [] ∧ p.isPrefixOf (c :: cs)
        · rw [if_pos h, if_pos h]
          have hp : 1 ≤ p.length := List.length_pos.mpr h.1
          have hlen : ((c :: cs).drop p.length).length = cs.length + 1 - p.length := by
            simp [List.length_drop]
          apply congrArg
          apply ih
          · rw [hlen]
            simp only [List.length_cons] at hf
            omega
          · rw [hlen]
            simp only [List.length_cons] at hg
            omega
        · rw [if_neg h, if_neg h]
          apply congrArg
          apply ih
          · simp only [List.length_cons] at hf
            omega
          · simp only [List.length_cons] at hg
            omega

theorem replaceAll_nil (p v : Str) : replaceAll p v [] = [] := rfl

theorem replaceAll_cons_neg {p : Str} {c : Char} {cs : Str} (v : Str)
    (h : ¬(p ≠ [] ∧ p.isPrefixOf (c :: cs))) :
    replaceAll p v (c :: cs) = c :: replaceAll p v cs := by
  show replaceAllGo p v (c :: cs).length (c :: cs) = _
  simp only [List.length_cons, replaceAllGo, if_neg h]
  rfl

theorem replaceAll_pos {p s : Str} (v : Str) (hp : p ≠ []) (hpre : p.isPrefixOf s = true) :
    replaceAll p v s = v ++ replaceAll p v (s.drop p.length) := by
  cases s with
  | nil =>
    cases p with
    | nil => exact absurd rfl hp
    | cons a as => simp [List.isPrefixOf] at hpre
  | cons c cs =>
    show replaceAllGo p v (c :: cs).length (c :: cs) = _
    simp only [List.length_cons, replaceAllGo, if_pos (And.intro hp hpre)]
    apply congrArg
    apply replaceAllGo_congr
    · have hp1 : 1 ≤ p.length := List.length_pos.mpr hp
      simp only [List.length_drop, List.length_cons]
      omega
    · exact Nat.le_refl _

theorem replaceAll_cons_of_ne (p' v : Str) {c : Char} (hc : c ≠ '[') (cs : Str) :
    replaceAll ('[' :: p') v (c :: cs) = c :: replaceAll ('[' :: p') v cs := by
  apply replaceAll_cons_neg
  rintro ⟨-, hpre⟩
  simp only [List.isPrefixOf, Bool.and_eq_true, beq_iff_eq] at hpre
  exact hc hpre.1.symm

theorem replaceAll_app_free (p' v : Str) :
    ∀ (l t : Str), (∀ c ∈ l, c ≠ '[') →
      replaceAll ('[' :: p') v (l ++ t) = l ++ replaceAll ('[' :: p') v t := by
  intro l
  induction l with
  | nil => intro t _; rfl
  | cons c l ih =>
    intro t hl
    rw [List.cons_append, replaceAll_cons_of_ne p' v (hl c (by simp)) (l ++ t),
      ih t (fun a ha => hl a (by simp [ha])), List.cons_append]

theorem isPrefixOf_self_app : ∀ (p t : Str), p.isPrefixOf (p ++ t) = true := by
  intro p
  induction p with
  | nil => intro t; simp [List.isPrefixOf]
  | cons c p ih => intro t; simp [List.isPrefixOf, ih]

theorem keyPrefFalse :
    ∀ (k k2 t : Str), k ≠ k2 → bfStr k → bfStr k2 →
      (k ++ (']' :: ']' :: [])).isPrefixOf (k2 ++ (']' :: ']' :: t)) = false := by
  intro k
  induction k with
  | nil =>
    intro k2 t hne hk hk2
    cases k2 with
    | nil => exact absurd rfl hne
    | cons c k2 =>
      have hc : c ≠ ']' := fun h => (hk2 c (by simp)).2 h
      simp only [List.nil_append, List.cons_append, List.isPrefixOf, Bool.and_eq_false_iff]
      left
      simp [hc, Ne.symm hc]
  | cons c k ih =>
    intro k2 t hne hk hk2
    cases k2 with
    | nil =>
      have hc : c ≠ ']' := fun h => (hk c (by simp)).2 h
      simp only [List.cons_append, List.nil_append, List.isPrefixOf, Bool.and_eq_false_iff]
      left
      simp [hc]
    | cons c2 k2 =>
      by_cases hcc : c = c2
      · subst hcc
        simp only [List.cons_append, List.isPrefixOf, beq_self_eq_true, Bool.true_and]
        apply ih
        · intro h; exact hne (by rw [h])
        · intro a ha; exact hk a (by simp [ha])
        · intro a ha; exact hk2 a (by simp [ha])
      · simp only [List.cons_append, List.isPrefixOf, Bool.and_eq_false_iff]
        left
        simp [hcc]

theorem phNotPrefTok {k k2 : Str} (t : Str) (hne : k2 ≠ k) (hk : bfStr k) (hk2 : bfStr k2) :
    ¬(placeholderOf k).isPrefixOf ('[' :: '[' :: (k2 ++ (']' :: ']' :: t))) = true := by
  intro h
  simp only [placeholderOf, List.isPrefixOf, beq_self_eq_true, Bool.true_and] at h
  rw [keyPrefFalse k k2 t (fun e => hne e.symm) hk hk2] at h
  exact Bool.false_ne_true h

theorem phNotPrefInner {k k2 : Str} (t : Str) (hk2 : bfStr k2) :
    ¬(placeholderOf k).isPrefixOf ('[' :: (k2 ++ (']' :: ']' :: t))) = true := by
  intro h
  cases k2 with
  | nil =>
    simp only [placeholderOf, List.nil_append, List.isPrefixOf, beq_self_eq_true,
      Bool.true_and, Bool.and_eq_true, beq_iff_eq] at h
    exact absurd h.1 (by decide)
  | cons c2 k2 =>
    have hc2 : c2 ≠ '[' := fun e => (hk2 c2 (by simp)).1 e
    simp only [placeholderOf, List.cons_append, List.isPrefixOf, beq_self_eq_true,
      Bool.true_and, Bool.and_eq_true, beq_iff_eq] at h
    exact hc2 h.1.symm

theorem replaceAll_tok_skip {k k2 : Str} (v t : Str) (hne : k2 ≠ k) (hk : bfStr k)
    (hk2 : bfStr k2) :
    replaceAll (placeholderOf k) v ('[' :: '[' :: (k2 ++ (']' :: ']' :: t))) =
      '[' :: '[' :: (k2 ++ (']' :: ']' :: replaceAll (placeholderOf k) v t)) := by
  rw [replaceAll_cons_neg v (fun hh => phNotPrefTok t hne hk hk2 hh.2)]
  rw [replaceAll_cons_neg v (fun hh => phNotPrefInner t hk2 hh.2)]
  have hfree : ∀ c ∈ k2 ++ (']' :: ']' :: []), c ≠ '[' := by
    intro c hc
    rcases List.mem_append.mp hc with h1 | h1
    · exact (hk2 c h1).1
    · simp only [List.mem_cons, List.not_mem_nil, or_false, or_self] at h1
      subst h1
      decide
  have hsplit : k2 ++ (']' :: ']' :: t) = (k2 ++ (']' :: ']' :: [])) ++ t := by simp
  rw [hsplit]
  rw [show placeholderOf k = '[' :: ('[' :: (k ++ (']' :: ']' :: []))) from rfl]
  rw [replaceAll_app_free _ _ _ _ hfree]
  simp

theorem replaceAll_tok_match (k v t : Str) :
    replaceAll (placeholderOf k) v ('[' :: '[' :: (k ++ (']' :: ']' :: t))) =
      v ++ replaceAll (placeholderOf k) v t := by
  have hsh : '[' :: '[' :: (k ++ (']' :: ']' :: t)) = placeholderOf k ++ t := by
    simp [placeholderOf]
  rw [hsh, replaceAll_pos v (by simp [placeholderOf]) (isPrefixOf_self_app _ _),
    List.drop_left]

/-! ### The segment view of well-formed text -/

theorem render_nil : render [] = [] := rfl

theorem render_cons (sg : Seg) (rest : List Seg) :
    render (sg :: rest) = renderSeg sg ++ render rest := rfl

theorem render_app (a b : List Seg) : render (a ++ b) = render a ++ render b := by
  induction a with
  | nil => rfl
  | cons sg rest ih => rw [List.cons_append, render_cons, render_cons, ih, List.append_assoc]

theorem render_tok_cons (k : Str) (rest : List Seg) :
    render (.tok k :: rest) = '[' :: '[' :: (k ++ (']' :: ']' :: render rest)) := by
  rw [render_cons]
  show placeholderOf k ++ render rest = _
  simp [placeholderOf]

theorem SegsOK_head {sg : Seg} {rest : List Seg} (h : SegsOK (sg :: rest)) : SegOK sg :=
  h sg (by simp)

theorem SegsOK_rest {sg : Seg} {rest : List Seg} (h : SegsOK (sg :: rest)) : SegsOK rest :=
  fun s hs => h s (by simp [hs])

theorem SegsOK_app {a b : List Seg} (ha : SegsOK a) (hb : SegsOK b) : SegsOK (a ++ b) := by
  intro sg hsg
  rcases List.mem_append.mp hsg with h | h
  · exact ha sg h
  · exact hb sg h

theorem replaceAll_render (k v : Str) (hk : bfStr k) :
    ∀ (segs : List Seg), SegsOK segs →
      replaceAll (placeholderOf k) v (render segs) = render (segs.map (substTok k v)) := by
  intro segs
  induction segs with
  | nil => intro _; rfl
  | cons sg rest ih =>
    intro hok
    have hrest : SegsOK rest := SegsOK_rest hok
    cases sg with
    | lit l =>
      have hl : bfStr l := SegsOK_head hok
      rw [List.map_cons, show substTok k v (.lit l) = .lit l from rfl, render_cons, render_cons,
        show renderSeg (Seg.lit l) = l from rfl,
        show placeholderOf k = '[' :: ('[' :: (k ++ (']' :: ']' :: []))) from rfl,
        replaceAll_app_free _ _ _ _ (fun c hc => (hl c hc).1)]
      exact congrArg (l ++ ·) (ih hrest)
    | tok k2 =>
      have hkey : keyStr k2 := SegsOK_head hok
      by_cases he : k2 = k
      · subst he
        rw [List.map_cons, show substTok k2 v (.tok k2) = .lit v from by simp [substTok],
          render_tok_cons, replaceAll_tok_match, ih hrest, render_cons]
        rfl
      · rw [List.map_cons, show substTok k v (.tok k2) = .tok k2 from by simp [substTok, he],
          render_tok_cons, replaceAll_tok_skip v _ he hk hkey.1, ih hrest, render_tok_cons]

theorem tokKeys_lit_cons (l : Str) (r : List Seg) : tokKeys (.lit l :: r) = tokKeys r := rfl

theorem tokKeys_tok_cons (k : Str) (r : List Seg) : tokKeys (.tok k :: r) = k :: tokKeys r := rfl

theorem substTok_map_OK {v : Str} (hv : bfStr v) (k : Str) {segs : List Seg}
    (h : SegsOK segs) : SegsOK (segs.map (substTok k v)) := by
  intro sg hsg
  rcases List.mem_map.mp hsg with ⟨sg0, hmem, rfl⟩
  have h0 := h sg0 hmem
  cases sg0 with
  | lit l => exact h0
  | tok k2 =>
    by_cases he : k2 = k
    · rw [show substTok k v (.tok k2) = .lit v from by simp [substTok, he]]
      exact hv
    · rw [show substTok k v (.tok k2) = .tok k2 from by simp [substTok, he]]
      exact h0

theorem mem_tokKeys_map_substTok {k3 k v : Str} :
    ∀ {segs : List Seg},
      (k3 ∈ tokKeys (segs.map (substTok k v)) ↔ k3 ∈ tokKeys segs ∧ k3 ≠ k) := by
  intro segs
  induction segs with
  | nil => simp [tokKeys]
  | cons sg rest ih =>
    cases sg with
    | lit l =>
      rw [List.map_cons, show substTok k v (.lit l) = .lit l from rfl, tokKeys_lit_cons,
        tokKeys_lit_cons]
      exact ih
    | tok k2 =>
      by_cases he : k2 = k
      · subst he
        rw [List.map_cons, show substTok k2 v (.tok k2) = .lit v from by simp [substTok],
          tokKeys_lit_cons, tokKeys_tok_cons]
        rw [ih]
        simp only [List.mem_cons]
        constructor
        · exact fun h => ⟨Or.inr h.1, h.2⟩
        · rintro ⟨h1 | h1, h2⟩
          · exact absurd h1 h2
          · exact ⟨h1, h2⟩
      · rw [List.map_cons, show substTok k v (.tok k2) = .tok k2 from by simp [substTok, he],
          tokKeys_tok_cons, tokKeys_tok_cons]
        simp only [List.mem_cons]
        rw [ih]
        constructor
        · rintro (h1 | h1)
          · exact ⟨Or.inl h1, h1 ▸ he⟩
          · exact ⟨Or.inr h1.1, h1.2⟩
        · rintro ⟨h1 | h1, h2⟩
          · exact Or.inl h1
          · exact Or.inr ⟨h1, h2⟩

theorem substTok_id_of_not_mem {k v : Str} :
    ∀ {segs : List Seg}, k ∉ tokKeys segs → segs.map (substTok k v) = segs := by
  intro segs
  induction segs with
  | nil => intro _; rfl
  | cons sg rest ih =>
    intro h
    cases sg with
    | lit l =>
      rw [List.map_cons, show substTok k v (.lit l) = .lit l from rfl,
        ih (by rw [tokKeys_lit_cons] at h; exact h)]
    | tok k2 =>
      have hne : k2 ≠ k := by
        intro e
        subst e
        exact h (by rw [tokKeys_tok_cons]; simp)
      rw [List.map_cons, show substTok k v (.tok k2) = .tok k2 from by simp [substTok, hne],
        ih (by rw [tokKeys_tok_cons] at h; exact fun hm => h (by simp [hm]))]

theorem containsSub_of_pref {p s : Str} (h : p.isPrefixOf s = true) : containsSub p s = true := by
  cases s with
  | nil => simpa [containsSub] using h
  | cons c cs => simp [containsSub, h]

theorem containsSub_app_right {p : Str} (t : Str) (h : containsSub p t = true) :
    ∀ (l : Str), containsSub p (l ++ t) = true := by
  intro l
  induction l with
  | nil => simpa using h
  | cons c l ih => simp [containsSub, ih]

theorem contains_of_tok {k : Str} :
    ∀ {segs : List Seg}, k ∈ tokKeys segs →
      containsSub (placeholderOf k) (render segs) = true := by
  intro segs
  induction segs with
  | nil => intro h; simp [tokKeys] at h
  | cons sg rest ih =>
    intro h
    cases sg with
    | lit l =>
      rw [tokKeys_lit_cons] at h
      rw [render_cons]
      exact containsSub_app_right _ (ih h) _
    | tok k2 =>
      rw [tokKeys_tok_cons] at h
      rcases List.mem_cons.mp h with he | hm
      · subst he
        rw [render_cons]
        exact containsSub_of_pref (isPrefixOf_self_app _ _)
      · rw [render_cons]
        exact containsSub_app_right _ (ih hm) _

theorem tokKeys_keyStr {segs : List Seg} (h : SegsOK segs) : ∀ k ∈ tokKeys segs, keyStr k := by
  intro k hk
  rcases List.mem_filterMap.mp hk with ⟨sg, hmem, hsg⟩
  cases sg with
  | lit l => simp at hsg
  | tok k2 =>
    simp only [Option.some.injEq] at hsg
    subst hsg
    exact h (.tok k2) hmem

/-! ### The replacement fold on well-formed text -/

theorem applyFold_fst (reps : List (Str × Str)) :
    ∀ (t : Str) (b : Bool), (reps.foldl applyStep (t, b)).1 = (applyReplacements reps t).1 := by
  induction reps with
  | nil => intro t b; rfl
  | cons kv rest ih =>
    intro t b
    simp only [applyReplacements, List.foldl_cons, applyStep]
    by_cases h : containsSub (placeholderOf kv.1) t = true
    · rw [if_pos h, if_pos h]
    · rw [if_neg h, if_neg h]
      exact ih t b

theorem applyFold_flag_true (reps : List (Str × Str)) :
    ∀ (t : Str), (reps.foldl applyStep (t, true)).2 = true := by
  induction reps with
  | nil => intro t; rfl
  | cons kv rest ih =>
    intro t
    simp only [List.foldl_cons, applyStep]
    by_cases h : containsSub (placeholderOf kv.1) t = true
    · rw [if_pos h]
      exact ih _
    · rw [if_neg h]
      exact ih t

theorem applyReplacements_flag_false {reps : List (Str × Str)} :
    ∀ {t : Str}, (applyReplacements reps t).2 = false → (applyReplacements reps t).1 = t := by
  induction reps with
  | nil => intro t _; rfl
  | cons kv rest ih =>
    intro t h
    simp only [applyReplacements, List.foldl_cons, applyStep] at h ⊢
    by_cases hc : containsSub (placeholderOf kv.1) t = true
    · rw [if_pos hc] at h
      rw [applyFold_flag_true] at h
      exact absurd h (by simp)
    · rw [if_neg hc] at h ⊢
      exact ih h

theorem applySegs_nil (segs : List Seg) : applySegs [] segs = segs := rfl

theorem applySegs_cons (kv : Str × Str) (rest : List (Str × Str)) (segs : List Seg) :
    applySegs (kv :: rest) segs = applySegs rest (segs.map (substTok kv.1 kv.2)) := rfl

theorem applySegs_OK {reps : List (Str × Str)} (hreps : RepsOK reps) :
    ∀ {segs : List Seg}, SegsOK segs → SegsOK (applySegs reps segs) := by
  induction reps with
  | nil => intro segs h; exact h
  | cons kv rest ih =>
    intro segs h
    rw [applySegs_cons]
    exact ih (fun x hx => hreps x (by simp [hx]))
      (substTok_map_OK (hreps kv (by simp)).2 kv.1 h)

theorem mem_tokKeys_applySegs {k3 : Str} :
    ∀ (reps : List (Str × Str)) (segs : List Seg),
      (k3 ∈ tokKeys (applySegs reps segs) ↔
        k3 ∈ tokKeys segs ∧ k3 ∉ reps.map Prod.fst) := by
  intro reps
  induction reps with
  | nil => intro segs; simp [applySegs_nil]
  | cons kv rest ih =>
    intro segs
    rw [applySegs_cons, ih, mem_tokKeys_map_substTok, List.map_cons]
    simp only [List.mem_cons]
    constructor
    · rintro ⟨⟨h1, h2⟩, h3⟩
      exact ⟨h1, fun h => h.elim h2 h3⟩
    · rintro ⟨h1, h2⟩
      exact ⟨⟨h1, fun h => h2 (Or.inl h)⟩, fun h => h2 (Or.inr h)⟩

theorem applyReplacements_render {reps : List (Str × Str)} (hreps : RepsOK reps) :
    ∀ {segs : List Seg}, SegsOK segs →
      (applyReplacements reps (render segs)).1 = render (applySegs reps segs) := by
  induction reps with
  | nil => intro segs _; rfl
  | cons kv rest ih =>
    intro segs hok
    have hk : keyStr kv.1 := (hreps kv (by simp)).1
    have hv : bfStr kv.2 := (hreps kv (by simp)).2
    have hrest : RepsOK rest := fun x hx => hreps x (by simp [hx])
    rw [applySegs_cons]
    simp only [applyReplacements, List.foldl_cons, applyStep]
    by_cases h : containsSub (placeholderOf kv.1) (render segs) = true
    · rw [if_pos h, applyFold_fst rest _ true,
        replaceAll_render kv.1 kv.2 hk.1 segs hok]
      exact ih hrest (substTok_map_OK hv kv.1 hok)
    · rw [if_neg h]
      have hnot : kv.1 ∉ tokKeys segs := fun hm => h (contains_of_tok hm)
      rw [substTok_id_of_not_mem hnot]
      exact ih hrest hok

/-! ### Properties of the scanner -/

theorem extractCapture_len :
    ∀ {s cap rest : Str}, extractCapture s = some (cap, rest) → rest.length ≤ s.length := by
  intro s
  induction s with
  | nil => intro cap rest h; simp [extractCapture] at h
  | cons c cs ih =>
    intro cap rest h
    simp only [extractCapture] at h
    by_cases h1 : c = ']' ∧ cs.head? = some ']'
    · rw [if_pos h1] at h
      simp only [Option.some.injEq, Prod.mk.injEq] at h
      rw [← h.2]
      calc cs.tail.length ≤ cs.length := by
            cases cs <;> simp
        _ ≤ (c :: cs).length := by simp
    · rw [if_neg h1] at h
      by_cases h2 : c = '\n'
      · rw [if_pos h2] at h
        simp at h
      · rw [if_neg h2] at h
        rcases Option.map_eq_some'.mp h with ⟨pr, hpr, heq⟩
        simp only [Prod.mk.injEq] at heq
        rw [← heq.2]
        calc pr.2.length ≤ cs.length := ih (by rw [hpr])
          _ ≤ (c :: cs).length := by simp

theorem findTokensGo_congr :
    ∀ (f g : Nat) (s : Str), s.length ≤ f → s.length ≤ g →
      findTokensGo f s = findTokensGo g s := by
  intro f
  induction f with
  | zero =>
    intro g s hf hg
    have hs : s = [] := List.eq_nil_of_length_eq_zero (Nat.le_zero.mp hf)
    subst hs
    cases g <;> rfl
  | succ n ih =>
    intro g s hf hg
    cases s with
    | nil => cases g <;> rfl
    | cons c cs =>
      cases g with
      | zero => simp at hg
      | succ m =>
        simp only [List.length_cons] at hf hg
        simp only [findTokensGo]
        by_cases h : c = '[' ∧ cs.head? = some '['
        · rw [if_pos h, if_pos h]
          cases hec : extractCapture cs.tail with
          | none => exact ih m cs (by omega) (by omega)
          | some pr =>
            have hlen : pr.2.length ≤ cs.length := by
              calc pr.2.length ≤ cs.tail.length := extractCapture_len hec
                _ ≤ cs.length := by cases cs <;> simp
            exact congrArg (pr.1 :: ·) (ih m pr.2 (by omega) (by omega))
        · rw [if_neg h, if_neg h]
          exact ih m cs (by omega) (by omega)

theorem findTokens_nil : findTokens [] = [] := rfl

theorem findTokens_cons_skip {c : Char} {cs : Str} (h : ¬(c = '[' ∧ cs.head? = some '[')) :
    findTokens (c :: cs) = findTokens cs := by
  show findTokensGo (c :: cs).length (c :: cs) = _
  simp only [List.length_cons, findTokensGo, if_neg h]
  rfl

theorem findTokens_cons_open_some {c : Char} {cs cap rest : Str}
    (h : c = '[' ∧ cs.head? = some '[') (he : extractCapture cs.tail = some (cap, rest)) :
    findTokens (c :: cs) = cap :: findTokens rest := by
  show findTokensGo (c :: cs).length (c :: cs) = _
  simp only [List.length_cons, findTokensGo, if_pos h, he]
  apply congrArg (cap :: ·)
  apply findTokensGo_congr
  · calc rest.length ≤ cs.tail.length := extractCapture_len he
      _ ≤ cs.length := by cases cs <;> simp
  · exact Nat.le_refl _

theorem findTokens_cons_open_none {c : Char} {cs : Str}
    (h : c = '[' ∧ cs.head? = some '[') (he : extractCapture cs.tail = none) :
    findTokens (c :: cs) = findTokens cs := by
  show findTokensGo (c :: cs).length (c :: cs) = _
  simp only [List.length_cons, findTokensGo, if_pos h, he]
  rfl

theorem extractCapture_key :
    ∀ (k t : Str), (∀ c ∈ k, c ≠ ']' ∧ c ≠ '\n') →
      extractCapture (k ++ (']' :: ']' :: t)) = some (k, t) := by
  intro k
  induction k with
  | nil =>
    intro t _
    simp [extractCapture]
  | cons c k ih =>
    intro t hk
    have hc1 : c ≠ ']' := (hk c (by simp)).1
    have hc2 : c ≠ '\n' := (hk c (by simp)).2
    rw [List.cons_append]
    have hno : ¬(c = ']' ∧ (k ++ ']' :: ']' :: t).head? = some ']') := fun h => hc1 h.1
    simp only [extractCapture]
    rw [if_neg hno, if_neg hc2, ih t (fun a ha => hk a (by simp [ha]))]
    rfl

theorem findTokens_app_free :
    ∀ (l t : Str), (∀ c ∈ l, c ≠ '[') → findTokens (l ++ t) = findTokens t := by
  intro l
  induction l with
  | nil => intro t _; rfl
  | cons c l ih =>
    intro t hl
    rw [List.cons_append, findTokens_cons_skip (fun h => hl c (by simp) h.1),
      ih t (fun a ha => hl a (by simp [ha]))]

theorem findTokens_render : ∀ {segs : List Seg}, SegsOK segs →
    findTokens (render segs) = tokKeys segs := by
  intro segs
  induction segs with
  | nil => intro _; rfl
  | cons sg rest ih =>
    intro hok
    have hrest : SegsOK rest := SegsOK_rest hok
    cases sg with
    | lit l =>
      have hl : bfStr l := SegsOK_head hok
      rw [render_cons, show renderSeg (Seg.lit l) = l from rfl,
        findTokens_app_free _ _ (fun c hc => (hl c hc).1), ih hrest, tokKeys_lit_cons]
    | tok k2 =>
      have hkey : keyStr k2 := SegsOK_head hok
      have hcap : extractCapture (k2 ++ (']' :: ']' :: render rest)) = some (k2, render rest) := by
        apply extractCapture_key
        intro c hc
        exact ⟨(hkey.1 c hc).2, fun e => hkey.2.1 (e ▸ hc)⟩
      rw [render_tok_cons, findTokens_cons_open_some (by simp) (by simpa using hcap),
        ih hrest, tokKeys_tok_cons]

/-! ### Run- and paragraph-level properties of the substitution engine -/

theorem applyReplacements_no_contains {reps : List (Str × Str)} :
    ∀ {t : Str}, (∀ kv ∈ reps, containsSub (placeholderOf kv.1) t = false) →
      applyReplacements reps t = (t, false) := by
  induction reps with
  | nil => intro t _; rfl
  | cons kv rest ih =>
    intro t h
    simp only [applyReplacements, List.foldl_cons, applyStep]
    rw [if_neg (by rw [h kv (by simp)]; simp)]
    exact ih (fun x hx => h x (by simp [hx]))

theorem processRun_text (reps : List (Str × Str)) (pc fb : Bool) (ds : Option Nat) (r : Run) :
    (processRun reps pc fb ds r).text = (applyReplacements reps r.text).1 := by
  unfold processRun
  cases hres : applyReplacements reps r.text with
  | mk t1 b1 =>
    cases b1 with
    | false =>
      have h1 : (applyReplacements reps r.text).1 = r.text :=
        applyReplacements_flag_false (by rw [hres])
      rw [hres] at h1
      simp [hres]
      exact h1.symm
    | true => cases pc <;> cases fb <;> simp [hres]

theorem processRun_id_of_no_contains (reps : List (Str × Str)) (pc fb : Bool)
    (ds : Option Nat) (r : Run)
    (h : ∀ kv ∈ reps, containsSub (placeholderOf kv.1) r.text = false) :
    processRun reps pc fb ds r = r := by
  unfold processRun
  rw [applyReplacements_no_contains h]
  simp

theorem mem_foldr_app {α β : Type} (f : α → List β) (l : List α) (x : β) :
    (x ∈ (l.map f).foldr (· ++ ·) []) ↔ ∃ a ∈ l, x ∈ f a := by
  induction l with
  | nil => simp
  | cons a l ih => simp [ih]

theorem forall₂_mem_left {α β : Type} {R : α → β → Prop} :
    ∀ {l1 : List α} {l2 : List β}, List.Forall₂ R l1 l2 →
      ∀ {a}, a ∈ l1 → ∃ b ∈ l2, R a b := by
  intro l1 l2 h
  induction h with
  | nil => intro a ha; simp at ha
  | @cons a0 b0 t1 t2 hr _ ih =>
    intro a ha
    rcases List.mem_cons.mp ha with rfl | ha
    · exact ⟨b0, by simp, hr⟩
    · rcases ih ha with ⟨b, hb, hrb⟩
      exact ⟨b, by simp [hb], hrb⟩

theorem forall₂_mem_right {α β : Type} {R : α → β → Prop} :
    ∀ {l1 : List α} {l2 : List β}, List.Forall₂ R l1 l2 →
      ∀ {b}, b ∈ l2 → ∃ a ∈ l1, R a b := by
  intro l1 l2 h
  induction h with
  | nil => intro b hb; simp at hb
  | @cons a0 b0 t1 t2 hr _ ih =>
    intro b hb
    rcases List.mem_cons.mp hb with rfl | hb
    · exact ⟨a0, by simp, hr⟩
    · rcases ih hb with ⟨a, ha, hra⟩
      exact ⟨a, by simp [ha], hra⟩

theorem runsWF_segs : ∀ {rs : List Run}, (∀ r ∈ rs, RunWF r) →
    ∃ sl : List (List Seg),
      List.Forall₂ (fun (r : Run) (segs : List Seg) => SegsOK segs ∧ r.text = render segs)
        rs sl := by
  intro rs
  induction rs with
  | nil => exact fun _ => ⟨[], List.Forall₂.nil⟩
  | cons r rs ih =>
    intro h
    rcases h r (by simp) with ⟨segs, hok, htext⟩
    rcases ih (fun x hx => h x (by simp [hx])) with ⟨sl, hsl⟩
    exact ⟨segs :: sl, List.Forall₂.cons ⟨hok, htext⟩ hsl⟩

theorem concatTexts_eq {rs : List Run} {sl : List (List Seg)}
    (hrel : List.Forall₂ (fun (r : Run) (segs : List Seg) => SegsOK segs ∧ r.text = render segs)
      rs sl) :
    (rs.map Run.text).foldr (· ++ ·) [] = render (sl.foldr (· ++ ·) []) := by
  induction hrel with
  | nil => rfl
  | cons h _ ih =>
    simp only [List.map_cons, List.foldr_cons]
    rw [h.2, ih, render_app]

theorem concatSegs_OK {sl : List (List Seg)} (h : ∀ segs ∈ sl, SegsOK segs) :
    SegsOK (sl.foldr (· ++ ·) []) := by
  induction sl with
  | nil => intro sg hsg; simp at hsg
  | cons segs sl ih =>
    simp only [List.foldr_cons]
    exact SegsOK_app (h segs (by simp)) (ih (fun x hx => h x (by simp [hx])))

theorem tokKeys_app (a b : List Seg) : tokKeys (a ++ b) = tokKeys a ++ tokKeys b :=
  List.filterMap_append a b _

theorem mem_tokKeys_concat {sl : List (List Seg)} {k : Str} :
    k ∈ tokKeys (sl.foldr (· ++ ·) []) ↔ ∃ segs ∈ sl, k ∈ tokKeys segs := by
  induction sl with
  | nil => simp [tokKeys]
  | cons segs sl ih => simp [tokKeys_app, ih]

theorem scanParagraph_mem_of_WF {p : Paragraph} {sl : List (List Seg)}
    (hrel : List.Forall₂ (fun (r : Run) (segs : List Seg) => SegsOK segs ∧ r.text = render segs)
      p.runs sl) (k : Str) :
    k ∈ scanParagraph p ↔ ∃ segs ∈ sl, k ∈ tokKeys segs := by
  have hok : ∀ segs ∈ sl, SegsOK segs := by
    intro segs hsegs
    rcases forall₂_mem_right hrel hsegs with ⟨r, _, hr⟩
    exact hr.1
  have hpara : findTokens (paraText p) = tokKeys (sl.foldr (· ++ ·) []) := by
    rw [show paraText p = (p.runs.map Run.text).foldr (· ++ ·) [] from rfl,
      concatTexts_eq hrel, findTokens_render (concatSegs_OK hok)]
  unfold scanParagraph
  simp only [List.mem_map, List.mem_append, mem_foldr_app]
  constructor
  · rintro ⟨k0, hk0, rfl⟩
    rcases hk0 with ⟨r, hr, hfind⟩ | hp
    · rcases forall₂_mem_left hrel hr with ⟨segs, hmem, hsok, htext⟩
      rw [htext, findTokens_render hsok] at hfind
      have hkey := tokKeys_keyStr hsok k0 hfind
      rw [hkey.2.2]
      exact ⟨segs, hmem, hfind⟩
    · rw [hpara, mem_tokKeys_concat] at hp
      rcases hp with ⟨segs, hmem, hk0⟩
      have hkey := tokKeys_keyStr (hok segs hmem) k0 hk0
      rw [hkey.2.2]
      exact ⟨segs, hmem, hk0⟩
  · rintro ⟨segs, hmem, hk⟩
    have hkey := tokKeys_keyStr (hok segs hmem) k hk
    refine ⟨k, Or.inr ?_, hkey.2.2⟩
    rw [hpara, mem_tokKeys_concat]
    exact ⟨segs, hmem, hk⟩

theorem processed_para_rel {reps : List (Str × Str)} (pc fb : Bool) (ds : Option Nat)
    (hreps : RepsOK reps) :
    ∀ {rs : List Run} {sl : List (List Seg)},
      List.Forall₂ (fun (r : Run) (segs : List Seg) => SegsOK segs ∧ r.text = render segs)
        rs sl →
      List.Forall₂ (fun (r : Run) (segs : List Seg) => SegsOK segs ∧ r.text = render segs)
        (rs.map (processRun reps pc fb ds)) (sl.map (applySegs reps)) := by
  intro rs sl hrel
  induction hrel with
  | nil => exact List.Forall₂.nil
  | cons hr _ ih =>
    refine List.Forall₂.cons ⟨applySegs_OK hreps hr.1, ?_⟩ ih
    rw [processRun_text, hr.2, applyReplacements_render hreps hr.1]

theorem scanParagraph_processed {reps : List (Str × Str)} (hreps : RepsOK reps)
    {p : Paragraph} (hWF : ParagraphWF p) (pc fb : Bool) (ds : Option Nat) (k : Str) :
    k ∈ scanParagraph (process_paragraph_runs reps pc fb ds p) ↔
      k ∈ scanParagraph p ∧ k ∉ reps.map Prod.fst := by
  rcases runsWF_segs hWF with ⟨sl, hrel⟩
  have hrel2 := processed_para_rel pc fb ds hreps hrel
  rw [scanParagraph_mem_of_WF (p := process_paragraph_runs reps pc fb ds p) hrel2 k,
    scanParagraph_mem_of_WF hrel k]
  constructor
  · rintro ⟨segs2, hmem2, hk⟩
    rcases List.mem_map.mp hmem2 with ⟨segs, hmem, rfl⟩
    rw [mem_tokKeys_applySegs] at hk
    exact ⟨⟨segs, hmem, hk.1⟩, hk.2⟩
  · rintro ⟨⟨segs, hmem, hk⟩, hout⟩
    refine ⟨applySegs reps segs, List.mem_map.mpr ⟨segs, hmem, rfl⟩, ?_⟩
    rw [mem_tokKeys_applySegs]
    exact ⟨hk, hout⟩

/-! ### Document-level scan and substitution -/

theorem mem_scanDoc {d : Document} {k : Str} :
    k ∈ scanDoc d ↔
      ((∃ p ∈ d.paragraphs, k ∈ scanParagraph p) ∨
        (∃ t ∈ d.tables, ∃ row ∈ t, ∃ cell ∈ row, ∃ p ∈ cell, k ∈ scanParagraph p)) := by
  unfold scanDoc
  simp only [List.mem_append, mem_foldr_app]

theorem scanParagraph_paint (p : Paragraph) :
    scanParagraph ⟨p.runs.map paintRun⟩ = scanParagraph p := by
  unfold scanParagraph paraText
  simp only [List.map_map]
  have h1 : (Run.text ∘ paintRun) = Run.text := funext (fun r => rfl)
  have h2 : ((fun (r : Run) => findTokens r.text) ∘ paintRun) =
      fun (r : Run) => findTokens r.text := funext (fun r => rfl)
  rw [h1, h2]

theorem mem_scanDoc_map {d : Document} {F : Paragraph → Paragraph} {k : Str} {Q : Prop}
    (s0 : List (Nat × StyleColor)) (dc0 : Option Nat)
    (hbody : ∀ p ∈ d.paragraphs, (k ∈ scanParagraph (F p) ↔ k ∈ scanParagraph p ∧ Q))
    (htab : ∀ t ∈ d.tables, ∀ row ∈ t, ∀ cell ∈ row, ∀ p ∈ cell,
      (k ∈ scanParagraph (F p) ↔ k ∈ scanParagraph p ∧ Q)) :
    k ∈ scanDoc
        ⟨d.paragraphs.map F,
          d.tables.map (fun t => t.map (fun row => row.map (fun cell => cell.map F))),
          s0, dc0⟩ ↔
      (k ∈ scanDoc d ∧ Q) := by
  rw [mem_scanDoc, mem_scanDoc]
  constructor
  · rintro (⟨p1, hp1, hkp⟩ | ⟨t1, ht1, row1, hrow1, cell1, hcell1, p1, hp1, hkp⟩)
    · rcases List.mem_map.mp hp1 with ⟨p, hp, rfl⟩
      have h := (hbody p hp).mp hkp
      exact ⟨Or.inl ⟨p, hp, h.1⟩, h.2⟩
    · rcases List.mem_map.mp ht1 with ⟨t, ht, rfl⟩
      rcases List.mem_map.mp hrow1 with ⟨row, hrow, rfl⟩
      rcases List.mem_map.mp hcell1 with ⟨cell, hcell, rfl⟩
      rcases List.mem_map.mp hp1 with ⟨p, hp, rfl⟩
      have h := (htab t ht row hrow cell hcell p hp).mp hkp
      exact ⟨Or.inr ⟨t, ht, row, hrow, cell, hcell, p, hp, h.1⟩, h.2⟩
  · rintro ⟨⟨p, hp, hkp⟩ | ⟨t, ht, row, hrow, cell, hcell, p, hp, hkp⟩, hq⟩
    · exact Or.inl ⟨F p, List.mem_map.mpr ⟨p, hp, rfl⟩, (hbody p hp).mpr ⟨hkp, hq⟩⟩
    · refine Or.inr ⟨t.map (fun row => row.map (fun cell => cell.map F)),
        List.mem_map.mpr ⟨t, ht, rfl⟩,
        row.map (fun cell => cell.map F), List.mem_map.mpr ⟨row, hrow, rfl⟩,
        cell.map F, List.mem_map.mpr ⟨cell, hcell, rfl⟩,
        F p, List.mem_map.mpr ⟨p, hp, rfl⟩, ?_⟩
      exact (htab t ht row hrow cell hcell p hp).mpr ⟨hkp, hq⟩

theorem scanDoc_processed {d : Document} {reps : List (Str × Str)} (pc fb : Bool)
    (hreps : RepsOK reps) (hWF : DocWF d) (k : Str) :
    k ∈ scanDoc (processDoc d reps pc fb) ↔ k ∈ scanDoc d ∧ k ∉ reps.map Prod.fst := by
  have hpt : ∀ (p : Paragraph), ParagraphWF p →
      (k ∈ scanParagraph (process_paragraph_runs reps pc fb d.defaultCharStyle p) ↔
        k ∈ scanParagraph p ∧ k ∉ reps.map Prod.fst) :=
    fun p hp => scanParagraph_processed hreps hp pc fb d.defaultCharStyle k
  cases fb with
  | false =>
    simp only [processDoc, Bool.false_eq_true, if_false]
    exact mem_scanDoc_map d.styles d.defaultCharStyle
      (fun p hp => hpt p (hWF.1 p hp))
      (fun t ht row hrow cell hcell p hp => hpt p (hWF.2 t ht row hrow cell hcell p hp))
  | true =>
    simp only [processDoc, if_true, forceAllBlackDoc, List.map_map, Function.comp_def]
    exact mem_scanDoc_map _ _
      (fun p hp => by
        rw [scanParagraph_paint (process_paragraph_runs reps pc true d.defaultCharStyle p)]
        exact hpt p (hWF.1 p hp))
      (fun t ht row hrow cell hcell p hp => by
        rw [scanParagraph_paint (process_paragraph_runs reps pc true d.defaultCharStyle p)]
        exact hpt p (hWF.2 t ht row hrow cell hcell p hp))

/-! ### Round-trip of the document codec -/

theorem decNat_enc (n : Nat) (r : Bytes) : decNat (encNat n ++ r) = some (n, r) := rfl

theorem decOptNat_enc (o : Option Nat) (r : Bytes) : decOptNat (encOptNat o ++ r) = some (o, r) := by
  cases o <;> rfl

theorem decColor_enc (c : Option (Nat × Nat × Nat)) (r : Bytes) :
    decColor (encColor c ++ r) = some (c, r) := by
  rcases c with - | ⟨a, b, c⟩ <;> rfl

theorem decChar_enc (c : Char) (r : Bytes) : decChar (encChar c ++ r) = some (c, r) := by
  simp [encChar, decChar, Char.ofNat_toNat]

theorem decCount_enc {α : Type} (f : Bytes → Option (α × Bytes)) (enc : α → Bytes)
    (hfe : ∀ a r, f (enc a ++ r) = some (a, r)) :
    ∀ (xs : List α) (r : Bytes),
      decCount f xs.length ((xs.map enc).foldr (· ++ ·) [] ++ r) = some (xs, r) := by
  intro xs
  induction xs with
  | nil => intro r; rfl
  | cons x xs ih =>
    intro r
    simp only [List.map_cons, List.foldr_cons, List.length_cons, decCount, List.append_assoc,
      hfe x, ih r]

theorem decListWith_enc {α : Type} (f : Bytes → Option (α × Bytes)) (enc : α → Bytes)
    (hfe : ∀ a r, f (enc a ++ r) = some (a, r)) (xs : List α) (r : Bytes) :
    decListWith f (encListWith enc xs ++ r) = some (xs, r) := by
  simp only [encListWith, List.cons_append, decListWith]
  exact decCount_enc f enc hfe xs r

theorem decRun_enc (x : Run) (r : Bytes) : decRun (encRun x ++ r) = some (x, r) := by
  simp only [encRun, decRun, List.append_assoc, Option.bind_eq_bind, Option.some_bind,
    decListWith_enc decChar encChar decChar_enc, decColor_enc, decOptNat_enc]
  rfl

theorem decPara_enc (x : Paragraph) (r : Bytes) : decPara (encPara x ++ r) = some (x, r) := by
  simp only [encPara, decPara, Option.bind_eq_bind, Option.some_bind,
    decListWith_enc decRun encRun decRun_enc]
  rfl

theorem decStyle_enc (x : Nat × StyleColor) (r : Bytes) :
    decStyle (encStyle x ++ r) = some (x, r) := by
  simp only [encStyle, decStyle, List.append_assoc, Option.bind_eq_bind, Option.some_bind,
    decNat_enc, decColor_enc, decOptNat_enc]
  rfl

theorem docDec_enc (d : Document) (r : Bytes) : docDec (docEnc d ++ r) = some (d, r) := by
  simp only [docEnc, docDec, List.append_assoc, Option.bind_eq_bind, Option.some_bind,
    decListWith_enc decPara encPara decPara_enc,
    decListWith_enc (decListWith (decListWith (decListWith decPara)))
      (encListWith (encListWith (encListWith encPara)))
      (decListWith_enc (decListWith (decListWith decPara))
        (encListWith (encListWith encPara))
        (decListWith_enc (decListWith decPara) (encListWith encPara)
          (decListWith_enc decPara encPara decPara_enc))),
    decListWith_enc decStyle encStyle decStyle_enc, decOptNat_enc]
  rfl

theorem decodeDocx_enc (d : Document) : decodeDocx (encodeDocx d) = some d := by
  show decodeDocx (0 :: docEnc d) = some d
  have h : docEnc d ++ [] = docEnc d := by simp
  simp only [decodeDocx]
  rw [if_pos (by omega), show docEnc d = docEnc d ++ [] from by simp, docDec_enc]

/-! ### The merged replacement dictionary and the placeholder classification -/

theorem mergeReplacements_keys_mem {defs : List (Str × Str)} {addl : List Str} {k : Str} :
    k ∈ (mergeReplacements defs addl).map Prod.fst ↔ k ∈ defs.map Prod.fst ∨ k ∈ addl := by
  unfold mergeReplacements
  simp only [List.map_append, List.map_map, List.mem_append, List.mem_map, Function.comp_def,
    List.mem_filter, decide_eq_true_eq]
  constructor
  · rintro (⟨kv, hkv, hfst⟩ | ⟨a, ⟨ha, -⟩, rfl⟩)
    · left
      refine ⟨kv, hkv, ?_⟩
      by_cases h : kv.1 ∈ addl <;> simp [h] at hfst <;> rw [← hfst]
    · right
      exact ha
  · rintro (⟨kv, hkv, rfl⟩ | ha)
    · left
      refine ⟨kv, hkv, ?_⟩
      by_cases h : kv.1 ∈ addl <;> simp [h]
    · by_cases hd : k ∈ defs.map Prod.fst
      · rcases List.mem_map.mp hd with ⟨kv, hkv, rfl⟩
        left
        refine ⟨kv, hkv, ?_⟩
        by_cases h : kv.1 ∈ addl <;> simp [h]
      · right
        refine ⟨k, ⟨ha, ?_⟩, rfl⟩
        rintro ⟨a, ha2, he⟩
        exact hd (List.mem_map.mpr ⟨a, ha2, he⟩)

theorem mergeReplacements_OK {defs : List (Str × Str)} {addl : List Str}
    (hdefs : ∀ kv ∈ defs, keyStr kv.1 ∧ bfStr kv.2) (haddl : ∀ a ∈ addl, keyStr a) :
    RepsOK (mergeReplacements defs addl) := by
  intro kv hkv
  unfold mergeReplacements at hkv
  rcases List.mem_append.mp hkv with h | h
  · rcases List.mem_map.mp h with ⟨kv0, hkv0, rfl⟩
    by_cases hm : kv0.1 ∈ addl
    · simp only [if_pos hm]
      exact ⟨(hdefs kv0 hkv0).1, by intro c hc; simp at hc⟩
    · simp only [if_neg hm]
      exact hdefs kv0 hkv0
  · rcases List.mem_map.mp h with ⟨a, ha, rfl⟩
    exact ⟨haddl a (List.mem_filter.mp ha).1, by intro c hc; simp at hc⟩

theorem mergeReplacements_nil {defs : List (Str × Str)} {addl : List Str}
    (h : mergeReplacements defs addl = []) : defs = [] ∧ addl = [] := by
  unfold mergeReplacements at h
  rcases List.append_eq_nil.mp h with ⟨h1, h2⟩
  have hd : defs = [] := List.map_eq_nil_iff.mp h1
  subst hd
  refine ⟨rfl, ?_⟩
  have h3 := List.map_eq_nil_iff.mp h2
  have h4 : addl.filter (fun k => decide (k ∉ ([] : List (Str × Str)).map Prod.fst)) = addl :=
    List.filter_eq_self.mpr (fun a _ => by simp)
  rw [h4] at h3
  exact h3

theorem mem_classify_fst {found dk : List Str} {k : Str} :
    k ∈ (classifyPlaceholders found dk).1 ↔
      k ∈ found ∧ k ∉ dk ∧ ("ADDL_".toList).isPrefixOf k = true := by
  unfold classifyPlaceholders
  simp only [List.mem_filter, Bool.and_eq_true, decide_eq_true_eq]

theorem mem_classify_snd {found dk : List Str} {k : Str} :
    k ∈ (classifyPlaceholders found dk).2 ↔
      k ∈ found ∧ k ∉ dk ∧ ("ADDL_".toList).isPrefixOf k = false := by
  unfold classifyPlaceholders
  simp only [List.mem_filter, Bool.and_eq_true, decide_eq_true_eq, Bool.not_eq_eq_eq_not,
    Bool.not_true]

theorem scanParagraph_keyStr {p : Paragraph} (h : ParagraphWF p) :
    ∀ k ∈ scanParagraph p, keyStr k := by
  intro k hk
  rcases runsWF_segs h with ⟨sl, hrel⟩
  rw [scanParagraph_mem_of_WF hrel] at hk
  rcases hk with ⟨segs, hmem, hkt⟩
  rcases forall₂_mem_right hrel hmem with ⟨r, -, hr⟩
  exact tokKeys_keyStr hr.1 k hkt

theorem scanDoc_keyStr {d : Document} (hWF : DocWF d) : ∀ k ∈ scanDoc d, keyStr k := by
  intro k hk
  rcases mem_scanDoc.mp hk with ⟨p, hp, hkp⟩ | ⟨t, ht, row, hrow, cell, hcell, p, hp, hkp⟩
  · exact scanParagraph_keyStr (hWF.1 p hp) k hkp
  · exact scanParagraph_keyStr (hWF.2 t ht row hrow cell hcell p hp) k hkp

/-- Core helper: after a successful substitution over a well-formed document
with well-formed keys and bracket-free values, no key of the merged
replacement dictionary is found by a re-scan of the output. -/
theorem subst_removes_key {b : Bytes} {d : Document} {defs : List (Str × Str)}
    {addl : List Str} {pc fb : Bool} (hb : decodeDocx b = some d) (hWF : DocWF d)
    (hdefs : ∀ kv ∈ defs, keyStr kv.1 ∧ bfStr kv.2) (haddl : ∀ a ∈ addl, keyStr a)
    {k : Str} (hk : k ∈ defs.map Prod.fst ∨ k ∈ addl) :
    ∀ out, replace_placeholders b defs addl pc fb = some out →
      k ∉ find_placeholders_in_docx out := by
  intro out hout
  unfold replace_placeholders at hout
  rw [hb] at hout
  have hout1 : (if mergeReplacements defs addl = [] then some b
      else some (encodeDocx (processDoc d (mergeReplacements defs addl) pc fb))) = some out :=
    hout
  clear hout
  by_cases hm : mergeReplacements defs addl = []
  · clear hout1
    rcases mergeReplacements_nil hm with ⟨h1, h2⟩
    subst h1
    subst h2
    simp at hk
  · rw [if_neg hm] at hout1
    have hout2 : out = encodeDocx (processDoc d (mergeReplacements defs addl) pc fb) := by
      injection hout1 with h
      exact h.symm
    subst hout2
    unfold find_placeholders_in_docx
    rw [decodeDocx_enc]
    intro hmem
    rw [List.mem_dedup, scanDoc_processed pc fb (mergeReplacements_OK hdefs haddl) hWF k]
      at hmem
    exact hmem.2 (mergeReplacements_keys_mem.mpr hk)

/-! ### Color policy -/

theorem processRun_pc_irrel (reps : List (Str × Str)) (ds : Option Nat) (r : Run) :
    processRun reps true true ds r = processRun reps false true ds r := by
  simp [processRun]

theorem processDoc_pc_irrel (d : Document) (reps : List (Str × Str)) :
    processDoc d reps true true = processDoc d reps false true := by
  have hfun : processRun reps true true d.defaultCharStyle =
      processRun reps false true d.defaultCharStyle :=
    funext (processRun_pc_irrel reps d.defaultCharStyle)
  have hfun2 : process_paragraph_runs reps true true d.defaultCharStyle =
      process_paragraph_runs reps false true d.defaultCharStyle := by
    funext p
    unfold process_paragraph_runs
    rw [hfun]
  simp only [processDoc, hfun2]

theorem replace_pc_irrel (b : Bytes) (defs : List (Str × Str)) (addl : List Str) :
    replace_placeholders b defs addl true true = replace_placeholders b defs addl false true := by
  unfold replace_placeholders
  cases hd : decodeDocx b with
  | none => rfl
  | some d =>
    show (if mergeReplacements defs addl = [] then some b
        else some (encodeDocx (processDoc d (mergeReplacements defs addl) true true))) =
      (if mergeReplacements defs addl = [] then some b
        else some (encodeDocx (processDoc d (mergeReplacements defs addl) false true)))
    by_cases hm : mergeReplacements defs addl = []
    · rw [if_pos hm, if_pos hm]
    · rw [if_neg hm, if_neg hm, processDoc_pc_irrel]

theorem allRuns_force_black (d0 : Document) :
    ∀ r ∈ allRuns (forceAllBlackDoc d0), r.colorRgb = some (0, 0, 0) ∧ r.themeColor = none := by
  intro r hr
  unfold allRuns forceAllBlackDoc at hr
  simp only [List.map_map, List.mem_append, mem_foldr_app, Function.comp_def] at hr
  rcases hr with ⟨p, hp, hrp⟩ | ⟨t, ht, row, hrow, cell, hcell, p, hp, hrp⟩ <;>
    (rcases List.mem_map.mp hrp with ⟨r0, hr0, rfl⟩; simp [paintRun])

theorem processDoc_black_runs (d : Document) (reps : List (Str × Str)) (pc : Bool) :
    ∀ r ∈ allRuns (processDoc d reps pc true), r.colorRgb = some (0, 0, 0) ∧ r.themeColor = none := by
  unfold processDoc
  simp only [if_true]
  exact allRuns_force_black _

theorem wfDoc_WF : DocWF wfDoc := by
  refine ⟨?_, ?_⟩
  · intro p hp
    simp only [wfDoc, List.mem_singleton] at hp
    subst hp
    intro r hr
    simp only [List.mem_singleton] at hr
    subst hr
    exact ⟨wfSegs, by decide, by decide⟩
  · intro t ht
    simp only [wfDoc, List.not_mem_nil] at ht

/-! ### Claim theorems -/

/-- C7 (confirmed): when the DefinitionMap and the optional-removal set
are both empty, `replace_placeholders` returns its input bytes unchanged,
for every input the document parser accepts (on unparseable bytes the
engine signals failure, per its error contract). -/
theorem C7_no_op_fast_path (b : Bytes) (d : Document) (pc fb : Bool)
    (hb : decodeDocx b = some d) :
    replace_placeholders b [] [] pc fb = some b := by
  unfold replace_placeholders
  rw [hb]
  rfl

/-- Witness for C7 at a concrete document. -/
theorem C7_no_op_fast_path_witness :
    replace_placeholders (encodeDocx demoDoc) [] [] false false = some (encodeDocx demoDoc) :=
  C7_no_op_fast_path (encodeDocx demoDoc) demoDoc false false (decodeDocx_enc demoDoc)

/-- C10 (confirmed): whenever the merged replacement dictionary is
non-empty, `replace_placeholders` re-parses and re-serializes the
document even when no placeholder occurs in it, and the fresh
serialization need not equal the input bytes: a parseable non-canonical
input with no tokens is returned changed. -/
theorem C10_reserialize :
    (∀ (b : Bytes) (d : Document) (defs : List (Str × Str)) (addl : List Str) (pc fb : Bool),
      decodeDocx b = some d → mergeReplacements defs addl ≠ [] →
        replace_placeholders b defs addl pc fb =
          some (encodeDocx (processDoc d (mergeReplacements defs addl) pc fb))) ∧
    replace_placeholders (1 :: docEnc plainDoc) [("K".toList, "v".toList)] [] false false ≠
      some (1 :: docEnc plainDoc) := by
  constructor
  · intro b d defs addl pc fb hb hm
    unfold replace_placeholders
    rw [hb]
    show (if mergeReplacements defs addl = [] then some b
      else some (encodeDocx (processDoc d (mergeReplacements defs addl) pc fb))) = _
    rw [if_neg hm]
  · decide

/-- Witness for C10's universal part at a concrete non-canonical input. -/
theorem C10_reserialize_witness :
    replace_placeholders (1 :: docEnc plainDoc) [("K".toList, "v".toList)] [] false false =
      some (encodeDocx (processDoc plainDoc
        (mergeReplacements [("K".toList, "v".toList)] []) false false)) :=
  C10_reserialize.1 (1 :: docEnc plainDoc) plainDoc [("K".toList, "v".toList)] [] false false
    (by decide) (by decide)

/-- C3 counterexample: an authentication failure makes `main` log a
critical failure and return, and the process then exits with code 0, not
1 as the claim states. -/
theorem C3_counterexample :
    (mainModel envAuthFail [] false false).failure = some .auth ∧
    (mainModel envAuthFail [] false false).success = false ∧
    (entryPoint true true false envAuthFail [] false false).1 = 0 := by
  decide

/-- C3 (amended): the exit code is 1 exactly when the client id is
missing, the output directory cannot be created, or the user interrupts;
failures inside `main` (auth, locate, fetch, substitution, upload, local
save) are logged but still end the process with exit code 0, because
`main` catches them and returns normally. -/
theorem C3_exit_codes (cid odir intr : Bool) (env : Env) (defs : List (Str × Str))
    (pc fb : Bool) :
    (entryPoint cid odir intr env defs pc fb).1 = (if cid && odir && !intr then 0 else 1) ∧
    (entryPoint cid odir intr env defs pc fb).2 =
      (if cid && odir && !intr then some (mainModel env defs pc fb) else none) := by
  cases cid <;> cases odir <;> cases intr <;> simp [entryPoint]

/-- C1 counterexample: a `[[K]]` token split across two adjacent runs of
one paragraph is found by the scanner (which checks the concatenated
paragraph text), yet substitution with `K` defined leaves it in place and
a re-scan of the substituted output still finds `K`. -/
theorem C1_counterexample :
    "K".toList ∈ find_placeholders_in_docx (encodeDocx cexSplitDoc) ∧
    "K".toList ∈ ([("K".toList, "v".toList)] : List (Str × Str)).map Prod.fst ∧
    replace_placeholders (encodeDocx cexSplitDoc) [("K".toList, "v".toList)] [] false false =
      some (encodeDocx (processDoc cexSplitDoc [("K".toList, "v".toList)] false false)) ∧
    "K".toList ∈ find_placeholders_in_docx
      (encodeDocx (processDoc cexSplitDoc [("K".toList, "v".toList)] false false)) := by
  decide

/-- C1 (amended): over well-formed documents — every delimiter belongs to
a complete token contained in a single run, token keys bracket-free,
newline-free and stripped — and DefinitionMaps with such keys and
bracket-free values, substitution followed by re-scanning finds no key of
the DefinitionMap. Tokens split across adjacent runs are excluded: the
scanner detects them but the run-level engine does not replace them. -/
theorem C1_subst_then_rescan (b : Bytes) (d : Document) (defs : List (Str × Str))
    (addl : List Str) (pc fb : Bool) (hb : decodeDocx b = some d) (hWF : DocWF d)
    (hdefs : ∀ kv ∈ defs, keyStr kv.1 ∧ bfStr kv.2) (haddl : ∀ a ∈ addl, keyStr a)
    (k : Str) (hk : k ∈ defs.map Prod.fst) :
    ∀ out, replace_placeholders b defs addl pc fb = some out →
      k ∉ find_placeholders_in_docx out :=
  subst_removes_key hb hWF hdefs haddl (Or.inl hk)

/-- Witness for C1 at a concrete well-formed document. -/
theorem C1_subst_then_rescan_witness :
    "K".toList ∉ find_placeholders_in_docx (encodeDocx (processDoc wfDoc
      (mergeReplacements [("K".toList, "Bob".toList)] ["ADDL_NOTE".toList]) false false)) :=
  C1_subst_then_rescan (encodeDocx wfDoc) wfDoc [("K".toList, "Bob".toList)]
    ["ADDL_NOTE".toList] false false (decodeDocx_enc wfDoc) wfDoc_WF (by decide) (by decide)
    "K".toList (by decide) _ (by decide)

/-- C2 counterexample: with `K` defined, a paragraph with runs `[[K]]`
and `tail` comes out of the engine as runs `v` and `tail` — the second
run is not blanked and the first does not receive the whole replaced
paragraph text, contradicting the concatenate-write-first-blank-rest
description (shown by `specConcatParagraph`, which renders it as `vtail`
followed by an empty run). -/
theorem C2_counterexample :
    ((process_paragraph_runs [("K".toList, "v".toList)] false false none cexC2Para).runs.map
      Run.text = ["v".toList, "tail".toList]) ∧
    ((specConcatParagraph [("K".toList, "v".toList)] cexC2Para).runs.map Run.text =
      ["vtail".toList, ([] : Str)]) ∧
    process_paragraph_runs [("K".toList, "v".toList)] false false none cexC2Para ≠
      specConcatParagraph [("K".toList, "v".toList)] cexC2Para := by
  decide

/-- C2 (amended): the substitution engine works run-locally: it preserves
the number of runs of every paragraph, rewrites each run's text to that
run's own text with all replacements applied, and leaves a run entirely
unchanged (text, color and style) when no placeholder of the dictionary
occurs in that run's text; it never concatenates runs or blanks other
runs. -/
theorem C2_run_level (reps : List (Str × Str)) (pc fb : Bool) (ds : Option Nat)
    (p : Paragraph) :
    ((process_paragraph_runs reps pc fb ds p).runs.length = p.runs.length) ∧
    (∀ (i : Nat) (hi : i < p.runs.length)
      (hq : i < (process_paragraph_runs reps pc fb ds p).runs.length),
      ((process_paragraph_runs reps pc fb ds p).runs.get ⟨i, hq⟩).text =
        (applyReplacements reps ((p.runs.get ⟨i, hi⟩)).text).1) ∧
    (∀ r ∈ p.runs, (∀ kv ∈ reps, containsSub (placeholderOf kv.1) r.text = false) →
      processRun reps pc fb ds r = r) := by
  refine ⟨by simp [process_paragraph_runs], ?_, ?_⟩
  · intro i hi hq
    simp [process_paragraph_runs, processRun_text]
  · intro r hr h
    exact processRun_id_of_no_contains reps pc fb ds r h

/-- Witness for C2: the untouched second run of the counterexample
paragraph is returned unchanged. -/
theorem C2_run_level_witness :
    processRun [("K".toList, "v".toList)] false false none
      (⟨"tail".toList, none, none, none⟩ : Run) = ⟨"tail".toList, none, none, none⟩ :=
  (C2_run_level [("K".toList, "v".toList)] false false none cexC2Para).2.2
    ⟨"tail".toList, none, none, none⟩ (by decide) (by decide)

/-- C4 (confirmed): once the temporary upload has succeeded, `main`'s
`finally` block requests deletion of the temporary item exactly when the
local save succeeded; on save failure it never requests deletion and
surfaces the skip-cleanup warning; on save success with a successful
remote delete the item is deleted, and without the skip warning. -/
theorem C4_cleanup_policy (env : Env) (defs : List (Str × Str)) (pc fb : Bool)
    (i p dr tid : Str) (content u : Bytes)
    (hauth : env.authOk = true) (hi : env.itemId = some i) (hp : env.parentId = some p)
    (hdr : env.driveId = some dr) (hc : env.fetched = some content)
    (hrep : replace_placeholders content defs
      (classifyPlaceholders (find_placeholders_in_docx content) (defs.map Prod.fst)).1 pc fb =
        some u)
    (hup : env.uploadId = some tid) :
    ((mainModel env defs pc fb).deleteAttempted = env.saveOk) ∧
    (env.saveOk = false →
      (mainModel env defs pc fb).deleted = false ∧
      (mainModel env defs pc fb).warnSkipCleanup = true) ∧
    (env.saveOk = true → env.deleteOk = true → (mainModel env defs pc fb).deleted = true) ∧
    (env.saveOk = true → (mainModel env defs pc fb).warnSkipCleanup = false) := by
  unfold mainModel
  rw [hauth, hi, hp, hdr, hc]
  simp only [Bool.not_true, Bool.false_eq_true, if_false, hrep, hup]
  cases hs : env.saveOk <;> cases hdk : env.deleteOk <;> simp

/-- Witness for C4 at an environment whose local save fails. -/
theorem C4_cleanup_policy_witness :
    ((mainModel envSaveFail [] false false).deleteAttempted = envSaveFail.saveOk) ∧
    (mainModel envSaveFail [] false false).deleted = false ∧
    (mainModel envSaveFail [] false false).warnSkipCleanup = true := by
  have h := C4_cleanup_policy envSaveFail [] false false "i".toList "p".toList "d".toList
    "t".toList (encodeDocx demoDoc) (encodeDocx demoDoc) rfl rfl rfl rfl rfl (by decide) rfl
  exact ⟨h.1, (h.2.1 rfl).1, (h.2.1 rfl).2⟩

/-- C5 counterexample: an undefined optional token `[[ADDL_X]]` split
across two runs is found by the scanner and classified for removal, yet
substitution returns the document bytes unchanged — the token is not
replaced with the empty string in the output. -/
theorem C5_counterexample :
    (classifyPlaceholders (find_placeholders_in_docx (encodeDocx cexC5Doc)) []).1 =
      ["ADDL_X".toList] ∧
    replace_placeholders (encodeDocx cexC5Doc) [] ["ADDL_X".toList] false false =
      some (encodeDocx cexC5Doc) ∧
    "ADDL_X".toList ∈ find_placeholders_in_docx (encodeDocx cexC5Doc) := by
  decide

/-- C5 (amended): an `ADDL_`-prefixed key found in the document and
absent from the DefinitionMap always goes to the removal set and is never
among the reported undefined placeholders; and on well-formed documents
(tokens unsplit within single runs) its token is removed: a re-scan of
the substituted output no longer finds it. -/
theorem C5_addl_removed (b : Bytes) (d : Document) (defs : List (Str × Str)) (pc fb : Bool)
    (hb : decodeDocx b = some d) (hWF : DocWF d)
    (hdefs : ∀ kv ∈ defs, keyStr kv.1 ∧ bfStr kv.2) (k : Str)
    (hfound : k ∈ find_placeholders_in_docx b)
    (hpre : ("ADDL_".toList).isPrefixOf k = true) (hnd : k ∉ defs.map Prod.fst) :
    k ∈ (classifyPlaceholders (find_placeholders_in_docx b) (defs.map Prod.fst)).1 ∧
    k ∉ (classifyPlaceholders (find_placeholders_in_docx b) (defs.map Prod.fst)).2 ∧
    (∀ out, replace_placeholders b defs
        (classifyPlaceholders (find_placeholders_in_docx b) (defs.map Prod.fst)).1 pc fb =
        some out → k ∉ find_placeholders_in_docx out) := by
  have haddl : ∀ a ∈ (classifyPlaceholders (find_placeholders_in_docx b)
      (defs.map Prod.fst)).1, keyStr a := by
    intro a ha
    have h1 := (mem_classify_fst.mp ha).1
    unfold find_placeholders_in_docx at h1
    rw [hb] at h1
    have h2 : a ∈ (scanDoc d).dedup := h1
    exact scanDoc_keyStr hWF a (List.mem_dedup.mp h2)
  refine ⟨mem_classify_fst.mpr ⟨hfound, hnd, hpre⟩, ?_, ?_⟩
  · intro hmem
    have h := (mem_classify_snd.mp hmem).2.2
    rw [hpre] at h
    exact absurd h (by decide)
  · exact subst_removes_key hb hWF hdefs haddl
      (Or.inr (mem_classify_fst.mpr ⟨hfound, hnd, hpre⟩))

/-- Witness for C5 at a concrete well-formed document. -/
theorem C5_addl_removed_witness :
    "ADDL_NOTE".toList ∈ (classifyPlaceholders
      (find_placeholders_in_docx (encodeDocx wfDoc))
      (([("K".toList, "Bob".toList)] : List (Str × Str)).map Prod.fst)).1 ∧
    "ADDL_NOTE".toList ∉ find_placeholders_in_docx (encodeDocx (processDoc wfDoc
      (mergeReplacements [("K".toList, "Bob".toList)]
        (classifyPlaceholders (find_placeholders_in_docx (encodeDocx wfDoc))
          (([("K".toList, "Bob".toList)] : List (Str × Str)).map Prod.fst)).1) false false)) := by
  have h := C5_addl_removed (encodeDocx wfDoc) wfDoc [("K".toList, "Bob".toList)] false false
    (decodeDocx_enc wfDoc) wfDoc_WF (by decide) "ADDL_NOTE".toList (by decide) (by decide)
    (by decide)
  exact ⟨h.1, h.2.2 _ (by decide)⟩

/-- C6 counterexample: in `[[X[[A]]]]` the scanner captures the key
`X[[A`, which is undefined and duly reported; but substituting the
defined key `A` rewrites the run to `[[Xv]]`, so the reported key does
not remain textually present in the output. -/
theorem C6_counterexample :
    "X[[A".toList ∈ (classifyPlaceholders (find_placeholders_in_docx (encodeDocx cexC6Doc))
      (([("A".toList, "v".toList)] : List (Str × Str)).map Prod.fst)).2 ∧
    replace_placeholders (encodeDocx cexC6Doc) [("A".toList, "v".toList)] [] false false =
      some (encodeDocx (processDoc cexC6Doc [("A".toList, "v".toList)] false false)) ∧
    "X[[A".toList ∉ find_placeholders_in_docx (encodeDocx (processDoc cexC6Doc
      [("A".toList, "v".toList)] false false)) := by
  decide

/-- C6 (amended): a found key that is not `ADDL_`-prefixed and has no
definition is always reported as an undefined placeholder; and on
well-formed documents (tokens unsplit and non-overlapping) it remains
present in the substituted output: a re-scan still finds it. -/
theorem C6_undefined_kept (b : Bytes) (d : Document) (defs : List (Str × Str)) (pc fb : Bool)
    (hb : decodeDocx b = some d) (hWF : DocWF d)
    (hdefs : ∀ kv ∈ defs, keyStr kv.1 ∧ bfStr kv.2) (k : Str)
    (hfound : k ∈ find_placeholders_in_docx b)
    (hpre : ("ADDL_".toList).isPrefixOf k = false) (hnd : k ∉ defs.map Prod.fst) :
    k ∈ (classifyPlaceholders (find_placeholders_in_docx b) (defs.map Prod.fst)).2 ∧
    (∀ out, replace_placeholders b defs
        (classifyPlaceholders (find_placeholders_in_docx b) (defs.map Prod.fst)).1 pc fb =
        some out → k ∈ find_placeholders_in_docx out) := by
  have haddl : ∀ a ∈ (classifyPlaceholders (find_placeholders_in_docx b)
      (defs.map Prod.fst)).1, keyStr a := by
    intro a ha
    have h1 := (mem_classify_fst.mp ha).1
    unfold find_placeholders_in_docx at h1
    rw [hb] at h1
    have h2 : a ∈ (scanDoc d).dedup := h1
    exact scanDoc_keyStr hWF a (List.mem_dedup.mp h2)
  have hkd : k ∈ (scanDoc d).dedup := by
    unfold find_placeholders_in_docx at hfound
    rw [hb] at hfound
    exact hfound
  refine ⟨mem_classify_snd.mpr ⟨hfound, hnd, hpre⟩, ?_⟩
  intro out hout
  unfold replace_placeholders at hout
  rw [hb] at hout
  have hout1 : (if mergeReplacements defs
        (classifyPlaceholders (find_placeholders_in_docx b) (defs.map Prod.fst)).1 = []
      then some b
      else some (encodeDocx (processDoc d (mergeReplacements defs
        (classifyPlaceholders (find_placeholders_in_docx b) (defs.map Prod.fst)).1) pc fb))) =
      some out := hout
  clear hout
  by_cases hm : mergeReplacements defs
      (classifyPlaceholders (find_placeholders_in_docx b) (defs.map Prod.fst)).1 = []
  · rw [if_pos hm] at hout1
    injection hout1 with h
    rw [← h]
    exact hfound
  · rw [if_neg hm] at hout1
    injection hout1 with h
    rw [← h]
    have hgoal : k ∈ (scanDoc (processDoc d (mergeReplacements defs
        (classifyPlaceholders (find_placeholders_in_docx b)
          (defs.map Prod.fst)).1) pc fb)).dedup := by
      rw [List.mem_dedup, scanDoc_processed pc fb (mergeReplacements_OK hdefs haddl) hWF k]
      refine ⟨List.mem_dedup.mp hkd, ?_⟩
      intro hmk
      rcases mergeReplacements_keys_mem.mp hmk with h1 | h1
      · exact hnd h1
      · have h2 := (mem_classify_fst.mp h1).2.2
        rw [hpre] at h2
        exact absurd h2 (by decide)
    show k ∈ find_placeholders_in_docx (encodeDocx (processDoc d (mergeReplacements defs
      (classifyPlaceholders (find_placeholders_in_docx b) (defs.map Prod.fst)).1) pc fb))
    unfold find_placeholders_in_docx
    rw [decodeDocx_enc]
    exact hgoal

/-- Witness for C6 at a concrete well-formed document. -/
theorem C6_undefined_kept_witness :
    "UNDEF".toList ∈ (classifyPlaceholders (find_placeholders_in_docx (encodeDocx wfDoc))
      (([("K".toList, "Bob".toList)] : List (Str × Str)).map Prod.fst)).2 ∧
    "UNDEF".toList ∈ find_placeholders_in_docx (encodeDocx (processDoc wfDoc
      (mergeReplacements [("K".toList, "Bob".toList)]
        (classifyPlaceholders (find_placeholders_in_docx (encodeDocx wfDoc))
          (([("K".toList, "Bob".toList)] : List (Str × Str)).map Prod.fst)).1) false false)) := by
  have h := C6_undefined_kept (encodeDocx wfDoc) wfDoc [("K".toList, "Bob".toList)] false false
    (decodeDocx_enc wfDoc) wfDoc_WF (by decide) "UNDEF".toList (by decide) (by decide)
    (by decide)
  exact ⟨h.1, h.2 _ (by decide)⟩

/-- C8 counterexample: with an empty DefinitionMap and empty removal set,
the fast path returns the input unchanged even when `--force-all-black`
(and `--preserve-color`) are requested, so not every run of the returned
document is black. -/
theorem C8_counterexample :
    replace_placeholders (encodeDocx redDoc) [] [] true true = some (encodeDocx redDoc) ∧
    decodeDocx (encodeDocx redDoc) = some redDoc ∧
    ¬(∀ r ∈ allRuns redDoc, r.colorRgb = some (0, 0, 0)) := by
  decide

/-- C8 (amended): force-all-black takes precedence over preserve-color —
the substitution result is identical with both flags and with
force-all-black alone — and whenever the merged replacement dictionary is
non-empty, every run of the entire output document (body paragraphs and
table cells) has its font color set to black with the theme color unset.
On the empty fast path no color policy is applied at all. -/
theorem C8_force_black_precedence :
    (∀ (b : Bytes) (defs : List (Str × Str)) (addl : List Str),
      replace_placeholders b defs addl true true = replace_placeholders b defs addl false true) ∧
    (∀ (b : Bytes) (d : Document) (defs : List (Str × Str)) (addl : List Str) (pc : Bool),
      decodeDocx b = some d → mergeReplacements defs addl ≠ [] →
        replace_placeholders b defs addl pc true =
          some (encodeDocx (processDoc d (mergeReplacements defs addl) pc true)) ∧
        ∀ r ∈ allRuns (processDoc d (mergeReplacements defs addl) pc true),
          r.colorRgb = some (0, 0, 0) ∧ r.themeColor = none) := by
  constructor
  · exact replace_pc_irrel
  · intro b d defs addl pc hb hm
    constructor
    · unfold replace_placeholders
      rw [hb]
      show (if mergeReplacements defs addl = [] then some b
        else some (encodeDocx (processDoc d (mergeReplacements defs addl) pc true))) = _
      rw [if_neg hm]
    · exact processDoc_black_runs d _ pc

/-- Witness for C8 at a concrete red document. -/
theorem C8_force_black_precedence_witness :
    replace_placeholders (encodeDocx redDoc) [("K".toList, "v".toList)] [] true true =
      replace_placeholders (encodeDocx redDoc) [("K".toList, "v".toList)] [] false true ∧
    (∀ r ∈ allRuns (processDoc redDoc
        (mergeReplacements [("K".toList, "v".toList)] []) true true),
      r.colorRgb = some (0, 0, 0) ∧ r.themeColor = none) :=
  ⟨C8_force_black_precedence.1 (encodeDocx redDoc) [("K".toList, "v".toList)] [],
    (C8_force_black_precedence.2 (encodeDocx redDoc) redDoc [("K".toList, "v".toList)] [] true
      (decodeDocx_enc redDoc) (by decide)).2⟩

/-- C9 counterexample: on unparseable template bytes the scanner returns
the empty set and nothing is classified, but the substitution engine
fails on the same bytes, the run aborts at the substitution step, and no
output document exists in which the ADDL tokens could remain. -/
theorem C9_counterexample :
    find_placeholders_in_docx badBytes = [] ∧
    replace_placeholders badBytes [("COMPANY".toList, "Acme".toList)] [] false false = none ∧
    (mainModel envBadTemplate [("COMPANY".toList, "Acme".toList)] false false).failure =
      some .subst ∧
    (mainModel envBadTemplate [("COMPANY".toList, "Acme".toList)] false false).success =
      false := by
  decide

/-- C9 (amended): if structural parsing fails, the scanner returns the
empty set, the classification is empty (so no ADDL key is slated for
removal and none is reported), and the substitution engine fails on the
same bytes for every dictionary, so the workflow aborts at the
substitution step and produces no output. -/
theorem C9_parse_failure (b : Bytes) (hb : decodeDocx b = none) :
    find_placeholders_in_docx b = [] ∧
    (∀ dk : List Str, classifyPlaceholders (find_placeholders_in_docx b) dk = ([], [])) ∧
    (∀ (defs : List (Str × Str)) (addl : List Str) (pc fb : Bool),
      replace_placeholders b defs addl pc fb = none) ∧
    (∀ (env : Env) (defs : List (Str × Str)) (pc fb : Bool) (i p dr : Str),
      env.authOk = true → env.itemId = some i → env.parentId = some p →
      env.driveId = some dr → env.fetched = some b →
      (mainModel env defs pc fb).failure = some .subst ∧
      (mainModel env defs pc fb).addlRemoved = [] ∧
      (mainModel env defs pc fb).reportable = [] ∧
      (mainModel env defs pc fb).success = false) := by
  have h1 : find_placeholders_in_docx b = [] := by
    unfold find_placeholders_in_docx
    rw [hb]
  have h3 : ∀ (defs : List (Str × Str)) (addl : List Str) (pc fb : Bool),
      replace_placeholders b defs addl pc fb = none := by
    intro defs addl pc fb
    unfold replace_placeholders
    rw [hb]
  refine ⟨h1, ?_, h3, ?_⟩
  · intro dk
    rw [h1]
    rfl
  · intro env defs pc fb i p dr ha hi hp hdr hc
    unfold mainModel
    rw [ha, hi, hp, hdr, hc]
    simp only [Bool.not_true, Bool.false_eq_true, if_false, h3, h1]
    exact ⟨trivial, rfl, rfl, trivial⟩

/-- Witness for C9 at concrete unparseable bytes. -/
theorem C9_parse_failure_witness :
    find_placeholders_in_docx badBytes = [] ∧
    replace_placeholders badBytes [] ["ADDL_X".toList] false false = none := by
  have h := C9_parse_failure badBytes (by decide)
  exact ⟨h.1, h.2.2.1 [] ["ADDL_X".toList] false false⟩

end Recoverlette
